import Mathlib

/-!
Verification of the ksuid-ts core: base-62 codec (`src/base62.ts`), 128-bit
payload arithmetic (`src/uint128.ts`), identifier operations (`src/ksuid.ts`)
and the sequence generator, embedded shallowly.

JavaScript semantics conventions used throughout the embedding:
* a `Uint8Array` element is a `Nat` in `[0, 256)`;
* a string is its list of UTF-16 code units, as a `List Nat`;
* JS `Number` bitwise operators (`<<`, `|`, `>>`, `&`) convert their operands
  to 32-bit two's complement first (`toInt32` below); `x >> s & 0xFF` on an
  integer equals `(toInt32 x).fdiv (2 ^ s) % 256` because the arithmetic right
  shift is flooring division and masking the low 8 bits of a two's-complement
  value is the Euclidean remainder;
* `BigInt` is `Int`; `v >> s` is `Int.fdiv v (2 ^ s)` and `v & 0xFF` is
  `v % 256` (Euclidean), again by two's-complement semantics;
* `Math.floor (a / b)` on integers is `Int.fdiv`, and JS `%` (remainder with
  the dividend's sign) is `Int.tmod`; all intermediate values the codec feeds
  to these operators stay far below `2 ^ 53`, so float rounding never alters
  the result.
-/

/-! ## Positional values of digit lists -/

/-- Value of a most-significant-first digit list over base `B` (Horner form),
for byte buffers (`B = 256`) and digit strings (`B = 62`). -/
def msbVal (B : Nat) (l : List Nat) : Nat :=
  l.foldl (fun r c => r * B + c) 0

/-- Value of a most-significant-first list of `Int` digits over base `S`;
mirrors the multi-word accumulators of the codec's long division. -/
def valI (S : Int) (l : List Int) : Int :=
  l.foldl (fun r c => r * S + c) 0

/-- Value of a least-significant-first digit list, the order in which the
long-division loop emits its remainders. -/
def lsbVal (D : Int) (l : List Int) : Int :=
  l.foldr (fun r acc => acc * D + r) 0

theorem msbVal_nil (B : Nat) : msbVal B [] = 0 := rfl

theorem msbVal_foldl_init (B : Nat) (l : List Nat) (a : Nat) :
    l.foldl (fun r c => r * B + c) a = a * B ^ l.length + msbVal B l := by
  induction l generalizing a with
  | nil => simp [msbVal]
  | cons x t ih =>
    rw [List.foldl_cons, ih (a * B + x)]
    have hx : msbVal B (x :: t) = x * B ^ t.length + msbVal B t := by
      show List.foldl (fun r c => r * B + c) 0 (x :: t) = _
      rw [List.foldl_cons, ih (0 * B + x)]
      ring
    rw [hx, List.length_cons]
    ring

theorem msbVal_cons (B : Nat) (x : Nat) (l : List Nat) :
    msbVal B (x :: l) = x * B ^ l.length + msbVal B l := by
  show List.foldl (fun r c => r * B + c) 0 (x :: l) = _
  rw [List.foldl_cons, msbVal_foldl_init]
  ring

theorem msbVal_append (B : Nat) (l₁ l₂ : List Nat) :
    msbVal B (l₁ ++ l₂) = msbVal B l₁ * B ^ l₂.length + msbVal B l₂ := by
  show List.foldl (fun r c => r * B + c) 0 (l₁ ++ l₂) = _
  rw [List.foldl_append, msbVal_foldl_init]
  rfl

theorem msbVal_lt (B : Nat) (l : List Nat) (h : ∀ x ∈ l, x < B) :
    msbVal B l < B ^ l.length := by
  induction l with
  | nil => simp [msbVal]
  | cons x t ih =>
    have hx : x < B := h x (List.mem_cons_self ..)
    have ht := ih (fun y hy => h y (List.mem_cons_of_mem _ hy))
    have hx1 : x + 1 ≤ B := hx
    calc msbVal B (x :: t) = x * B ^ t.length + msbVal B t := msbVal_cons ..
    _ < x * B ^ t.length + B ^ t.length := by omega
    _ = (x + 1) * B ^ t.length := by ring
    _ ≤ B * B ^ t.length := Nat.mul_le_mul_right _ hx1
    _ = B ^ (x :: t).length := by rw [List.length_cons]; ring

theorem msbVal_replicate_zero (B : Nat) (k : Nat) (l : List Nat) :
    msbVal B (List.replicate k 0 ++ l) = msbVal B l := by
  induction k with
  | zero => simp
  | succ n ih =>
    rw [List.replicate_succ, List.cons_append, msbVal_cons]
    simpa using ih

theorem valI_foldl_init (S : Int) (l : List Int) (a : Int) :
    l.foldl (fun r c => r * S + c) a = a * S ^ l.length + valI S l := by
  induction l generalizing a with
  | nil => simp [valI]
  | cons x t ih =>
    rw [List.foldl_cons, ih (a * S + x)]
    have hx : valI S (x :: t) = x * S ^ t.length + valI S t := by
      show List.foldl (fun r c => r * S + c) 0 (x :: t) = _
      rw [List.foldl_cons, ih (0 * S + x)]
      ring
    rw [hx, List.length_cons]
    ring

theorem valI_cons (S : Int) (x : Int) (l : List Int) :
    valI S (x :: l) = x * S ^ l.length + valI S l := by
  show List.foldl (fun r c => r * S + c) 0 (x :: l) = _
  rw [List.foldl_cons, valI_foldl_init]
  ring

theorem valI_append (S : Int) (l₁ l₂ : List Int) :
    valI S (l₁ ++ l₂) = valI S l₁ * S ^ l₂.length + valI S l₂ := by
  show List.foldl (fun r c => r * S + c) 0 (l₁ ++ l₂) = _
  rw [List.foldl_append, valI_foldl_init]
  rfl

theorem valI_nonneg (S : Int) (l : List Int) (hS : 0 ≤ S) (h : ∀ x ∈ l, 0 ≤ x) :
    0 ≤ valI S l := by
  induction l with
  | nil => simp [valI]
  | cons x t ih =>
    have hx : 0 ≤ x := h x (List.mem_cons_self ..)
    have ht := ih (fun y hy => h y (List.mem_cons_of_mem _ hy))
    have hp : (0:Int) ≤ x * S ^ t.length :=
      mul_nonneg hx (pow_nonneg hS _)
    rw [valI_cons]; omega

theorem valI_pos_of_head (S : Int) (x : Int) (l : List Int) (hS : 1 ≤ S)
    (hx : 1 ≤ x) (h : ∀ y ∈ l, 0 ≤ y) : 1 ≤ valI S (x :: l) := by
  have h0 : (0:Int) < S ^ l.length := pow_pos (by omega) _
  have h2 : 0 ≤ valI S l := valI_nonneg S l (by omega) h
  have h3 : (1:Int) * S ^ l.length ≤ x * S ^ l.length :=
    mul_le_mul_of_nonneg_right hx (by omega)
  rw [valI_cons]
  have h4 : (1:Int) * S ^ l.length = S ^ l.length := by ring
  omega

theorem valI_map_cast (B : Nat) (l : List Nat) :
    valI (B : Int) (l.map (Nat.cast : Nat → Int)) = (msbVal B l : Int) := by
  induction l with
  | nil => simp [valI, msbVal]
  | cons x t ih =>
    rw [List.map_cons, valI_cons, msbVal_cons, List.length_map, ih]
    push_cast
    ring

theorem valI_reverse_eq_lsbVal (D : Int) (l : List Int) :
    valI D l.reverse = lsbVal D l := by
  induction l with
  | nil => rfl
  | cons x t ih =>
    rw [List.reverse_cons, valI_append, ih]
    have h1 : valI D [x] = x := by simp [valI]
    have h2 : lsbVal D (x :: t) = lsbVal D t * D + x := rfl
    rw [h1, h2]
    simp

theorem valI_replicate_zero (S : Int) (k : Nat) (l : List Int) :
    valI S (List.replicate k 0 ++ l) = valI S l := by
  induction k with
  | zero => simp
  | succ n ih =>
    rw [List.replicate_succ, List.cons_append, valI_cons]
    simpa using ih

/-! ## Lexicographic comparison of code-unit lists -/

/-- Signed lexicographic comparison: the first differing position decides via
subtraction, a strict prefix compares as smaller. Models both the byte loop of
`KSUID.compare` (equal 20-byte inputs there) and JS string relational
operators, which compare UTF-16 code units. -/
def lexCompareInt : List Nat → List Nat → Int
  | [], [] => 0
  | [], _ :: _ => -1
  | _ :: _, [] => 1
  | x :: xs, y :: ys => if x = y then lexCompareInt xs ys else (x : Int) - y

theorem lexCompareInt_self (l : List Nat) : lexCompareInt l l = 0 := by
  induction l with
  | nil => rfl
  | cons x t ih => simp [lexCompareInt, ih]

theorem lexCompareInt_append_left (p l₁ l₂ : List Nat) :
    lexCompareInt (p ++ l₁) (p ++ l₂) = lexCompareInt l₁ l₂ := by
  induction p with
  | nil => rfl
  | cons x t ih => simp [lexCompareInt, ih]

theorem lexCompareInt_value (B : Nat) :
    ∀ xs ys : List Nat, xs.length = ys.length →
    (∀ x ∈ xs, x < B) → (∀ y ∈ ys, y < B) →
    ((lexCompareInt xs ys < 0 ↔ msbVal B xs < msbVal B ys) ∧
      (lexCompareInt xs ys = 0 ↔ msbVal B xs = msbVal B ys)) := by
  intro xs
  induction xs with
  | nil =>
    intro ys hl _ _
    cases ys with
    | nil => simp [lexCompareInt]
    | cons y yt => simp at hl
  | cons x xt ih =>
    intro ys hl hx hy
    cases ys with
    | nil => simp at hl
    | cons y yt =>
      have hlen : xt.length = yt.length := by simpa using hl
      have hx' : ∀ a ∈ xt, a < B := fun a ha => hx a (List.mem_cons_of_mem _ ha)
      have hy' : ∀ a ∈ yt, a < B := fun a ha => hy a (List.mem_cons_of_mem _ ha)
      have hxB : x < B := hx x (List.mem_cons_self ..)
      have hyB : y < B := hy y (List.mem_cons_self ..)
      have hxtv := msbVal_lt B xt hx'
      have hytv := msbVal_lt B yt hy'
      rw [msbVal_cons, msbVal_cons, lexCompareInt]
      by_cases hxy : x = y
      · subst hxy
        obtain ⟨h1, h2⟩ := ih yt hlen hx' hy'
        rw [if_pos rfl, hlen]
        constructor
        · rw [h1]; omega
        · rw [h2]; omega
      · rw [if_neg hxy, hlen]
        rcases Nat.lt_or_ge x y with hlt | hge
        · have hstep : (x + 1) * B ^ yt.length ≤ y * B ^ yt.length :=
            Nat.mul_le_mul_right _ (by omega)
          rw [hlen] at hxtv
          have hval : x * B ^ yt.length + msbVal B xt <
              y * B ^ yt.length + msbVal B yt := by nlinarith
          constructor
          · constructor
            · intro _; exact hval
            · intro _
              have hc : (x:Int) < y := by exact_mod_cast hlt
              omega
          · constructor
            · intro h
              exact absurd (show x = y by omega) hxy
            · intro h
              exact absurd h (Nat.ne_of_lt hval)
        · have hyx : y < x := by omega
          have hstep : (y + 1) * B ^ yt.length ≤ x * B ^ yt.length :=
            Nat.mul_le_mul_right _ (by omega)
          have hval : y * B ^ yt.length + msbVal B yt <
              x * B ^ yt.length + msbVal B xt := by nlinarith
          constructor
          · constructor
            · intro h
              exact absurd (show x < y by omega) (by omega)
            · intro h
              exact absurd h (Nat.lt_asymm hval)
          · constructor
            · intro h
              exact absurd (show x = y by omega) hxy
            · intro h
              exact absurd h (Nat.ne_of_gt hval)

theorem lexCompareInt_map_mono (f : Nat → Nat) (B : Nat)
    (hf : ∀ i j, i < B → j < B → (i < j ↔ f i < f j)) :
    ∀ xs ys : List Nat, (∀ x ∈ xs, x < B) → (∀ y ∈ ys, y < B) →
    ((lexCompareInt (xs.map f) (ys.map f) < 0 ↔ lexCompareInt xs ys < 0) ∧
      (lexCompareInt (xs.map f) (ys.map f) = 0 ↔ lexCompareInt xs ys = 0)) := by
  intro xs
  induction xs with
  | nil =>
    intro ys _ _
    cases ys <;> simp [lexCompareInt]
  | cons x xt ih =>
    intro ys hx hy
    cases ys with
    | nil => simp [lexCompareInt]
    | cons y yt =>
      have hxB : x < B := hx x (List.mem_cons_self ..)
      have hyB : y < B := hy y (List.mem_cons_self ..)
      have hinj : f x = f y ↔ x = y := by
        constructor
        · intro h
          by_contra hne
          rcases Nat.lt_or_ge x y with hlt | hge
          · exact absurd h (by have := (hf x y hxB hyB).1 hlt; omega)
          · have hyx : y < x := by omega
            exact absurd h.symm (by have := (hf y x hyB hxB).1 hyx; omega)
        · intro h; rw [h]
      simp only [List.map_cons, lexCompareInt]
      by_cases hxy : x = y
      · rw [if_pos hxy, if_pos (hinj.2 hxy)]
        exact ih yt (fun a ha => hx a (List.mem_cons_of_mem _ ha))
          (fun a ha => hy a (List.mem_cons_of_mem _ ha))
      · rw [if_neg hxy, if_neg (fun h => hxy (hinj.1 h))]
        rcases Nat.lt_or_ge x y with hlt | hge
        · have := (hf x y hxB hyB).1 hlt
          constructor <;> constructor <;> intro <;> omega
        · have hyx : y < x := by omega
          have := (hf y x hyB hxB).1 hyx
          constructor <;> constructor <;> intro <;> omega

/-- JS string `<`: code-unit lexicographic strict order, a strict prefix
being smaller. -/
def lexLtB : List Nat → List Nat → Bool
  | [], [] => false
  | [], _ :: _ => true
  | _ :: _, [] => false
  | x :: xs, y :: ys => if x < y then true else if y < x then false else lexLtB xs ys

theorem lexLtB_iff_lexCompareInt :
    ∀ xs ys : List Nat, (lexLtB xs ys = true ↔ lexCompareInt xs ys < 0) := by
  intro xs
  induction xs with
  | nil => intro ys; cases ys <;> simp [lexLtB, lexCompareInt]
  | cons x xt ih =>
    intro ys
    cases ys with
    | nil => simp [lexLtB, lexCompareInt]
    | cons y yt =>
      simp only [lexLtB, lexCompareInt]
      rcases Nat.lt_trichotomy x y with h | h | h
      · rw [if_pos h, if_neg (by omega)]
        simp
        omega
      · subst h
        rw [if_neg (by omega), if_neg (by omega), if_pos rfl]
        exact ih yt
      · rw [if_neg (by omega), if_pos h, if_neg (by omega)]
        simp
        omega

/-! ## JavaScript integer primitives -/

/-- JS ToInt32: wrap an integer into two's-complement 32-bit range
`[-2^31, 2^31)`; applied implicitly by every JS `Number` bitwise operator. -/
def toInt32 (n : Int) : Int :=
  (n + 2 ^ 31) % 2 ^ 32 - 2 ^ 31

theorem toInt32_eq_of_lt (n : Int) (h0 : 0 ≤ n) (h : n < 2 ^ 31) : toInt32 n = n := by
  unfold toInt32
  omega

theorem toInt32_emod (n : Int) : toInt32 n % 2 ^ 32 = n % 2 ^ 32 := by
  unfold toInt32
  omega

theorem toInt32_bounds (n : Int) : -2 ^ 31 ≤ toInt32 n ∧ toInt32 n < 2 ^ 31 := by
  unfold toInt32
  omega

theorem toInt32_idem (n : Int) : toInt32 (toInt32 n) = toInt32 n := by
  unfold toInt32
  omega

/-- One byte of a `BigInt`, as written by `writeBigInt` in `uint128.ts`:
`Number((value >> shift) & 0xFFn)` with arithmetic shift and two's-complement
masking. -/
def bigByte (v : Int) (sh : Nat) : Nat :=
  ((v.fdiv (2 ^ sh)) % 256).toNat

/-- The `writeBigInt(array, offset, value, length)` helper of `uint128.ts`:
big-endian bytes `(value >> 8*(length-1-i)) & 0xFF` for `i < length`. -/
def writeBigInt (len : Nat) (v : Int) : List Nat :=
  (List.range len).map fun i => bigByte v (8 * (len - 1 - i))

/-- The `bytesToBigInt` helper of `uint128.ts`: big-endian accumulation
`result = (result << 8n) | BigInt(bytes[i])`. Since `result` stays nonnegative
and each byte is below 256, the shift-or accumulation is the base-256 Horner
value of the byte list. -/
def bytesToBigInt (bs : List Nat) : Int :=
  valI 256 (bs.map (Nat.cast : Nat → Int))

theorem bytesToBigInt_eq_msbVal (bs : List Nat) :
    bytesToBigInt bs = (msbVal 256 bs : Int) :=
  valI_map_cast 256 bs

/-! ## The base-62 alphabet (`constants.ts`, `base62.ts`) -/

/-- Character codes of `BASE62_CHARACTERS`. -/
def BASE62_CHARACTERS : List Nat :=
  "0123456789ABCDEFGHIJKLMNOPQRSTUVWXYZabcdefghijklmnopqrstuvwxyz".toList.map Char.toNat

/-- Character codes of `MIN_STRING_ENCODED`, 27 `'0'` characters. -/
def MIN_STRING_ENCODED : List Nat := List.replicate 27 48

/-- Character codes of `MAX_STRING_ENCODED`. -/
def MAX_STRING_ENCODED : List Nat :=
  "aWgEPTl1tmebfsQzFP4bxwgy80V".toList.map Char.toNat

/-- The `base62Value` function of `base62.ts`, on a character code. The final
branch applies unconditionally to every code outside `0-9A-Z`, so codes that
are not in the alphabet produce values that may be negative or exceed 61. -/
def base62Value (c : Nat) : Int :=
  if 48 ≤ c ∧ c ≤ 57 then (c : Int) - 48
  else if 65 ≤ c ∧ c ≤ 90 then 10 + ((c : Int) - 65)
  else 36 + ((c : Int) - 97)

/-- Encoder character table lookup `BASE62_CHARACTERS.charCodeAt(remainder)`:
out-of-range indices give `NaN`, which a `Uint8Array` stores as `0`. -/
def charAt62 (r : Int) : Nat :=
  if 0 ≤ r ∧ r < 62 then BASE62_CHARACTERS.getD r.toNat 0 else 0

/-- Digit value of a character code after the `Uint8Array` wrap applied by
`parts[i] = base62Value(...)` in `fastDecodeBase62` (ToUint8 is mod 256). -/
def digitOfChar (c : Nat) : Nat :=
  ((base62Value c) % 256).toNat

theorem digitOfChar_charAt62 : ∀ d : Nat, d < 62 → digitOfChar (charAt62 (d : Int)) = d := by
  decide

theorem charAt62_lt_128 : ∀ d : Nat, d < 62 → charAt62 (d : Int) < 128 := by
  decide

theorem charAt62_mono : ∀ i : Nat, i < 62 → ∀ j : Nat, j < 62 →
    (i < j ↔ charAt62 (i : Int) < charAt62 (j : Int)) := by
  decide

/-! ## The long-division loop shared by `fastEncodeBase62` and
`fastDecodeBase62` -/

/-- One word of the long-division inner loop:
`value = c + remainder * srcBase; digit = Math.floor(value / dstBase);`
`remainder = value % dstBase; if (quotient.length !== 0 || digit !== 0)`
`quotient.push(digit)`. -/
def passStep (S D : Int) (qr : List Int × Int) (c : Int) : List Int × Int :=
  if qr.1 = [] ∧ (c + qr.2 * S).fdiv D = 0 then
    (qr.1, (c + qr.2 * S).tmod D)
  else
    (qr.1 ++ [(c + qr.2 * S).fdiv D], (c + qr.2 * S).tmod D)

/-- One full pass of the `while` loop body over the current word list,
returning the new quotient and the emitted remainder. -/
def pass (S D : Int) (bp : List Int) : List Int × Int :=
  bp.foldl (passStep S D) ([], 0)

/-- The `while (bp.length !== 0)` loop, with explicit fuel: returns the list
of remainders in emission order (least significant first), or `none` if the
fuel is exhausted before the quotient becomes empty. The JS loop has no fuel;
a result of `none` for every fuel means the JS loop never terminates. -/
def passLoop (S D : Int) : Nat → List Int → Option (List Int)
  | 0, _ => none
  | Nat.succ f, bp =>
    if bp = [] then some []
    else
      match passLoop S D f (pass S D bp).1 with
      | none => none
      | some rs => some ((pass S D bp).2 :: rs)

/-- Word splitting of `fastEncodeBase62`: each of the five 32-bit words is
built with `(src[4k] << 24) | ... | src[4k+3]`, whose JS value is the signed
32-bit reinterpretation of the big-endian word (the shifted bytes occupy
disjoint bit ranges, so the `|` accumulation is addition wrapped by ToInt32). -/
def encodeWords (src : List Nat) : List Int :=
  [ toInt32 ((src.getD 0 0) * 2 ^ 24 + (src.getD 1 0) * 2 ^ 16 + (src.getD 2 0) * 2 ^ 8 + src.getD 3 0),
    toInt32 ((src.getD 4 0) * 2 ^ 24 + (src.getD 5 0) * 2 ^ 16 + (src.getD 6 0) * 2 ^ 8 + src.getD 7 0),
    toInt32 ((src.getD 8 0) * 2 ^ 24 + (src.getD 9 0) * 2 ^ 16 + (src.getD 10 0) * 2 ^ 8 + src.getD 11 0),
    toInt32 ((src.getD 12 0) * 2 ^ 24 + (src.getD 13 0) * 2 ^ 16 + (src.getD 14 0) * 2 ^ 8 + src.getD 15 0),
    toInt32 ((src.getD 16 0) * 2 ^ 24 + (src.getD 17 0) * 2 ^ 16 + (src.getD 18 0) * 2 ^ 8 + src.getD 19 0) ]

/-- The `fastEncodeBase62` function of `base62.ts` on a 20-byte buffer, with
explicit fuel for its `while` loop. Remainder `j` (1-based) is written at
`dst[27 - j]`; writes at negative indices are dropped by the `Uint8Array`,
positions left of the last write are padded with `'0'` (code 48), and
out-of-range `charCodeAt` arguments store `0` (`NaN` truncation). -/
def fastEncodeBase62 (fuel : Nat) (src : List Nat) : Option (List Nat) :=
  match passLoop (2 ^ 32) 62 fuel (encodeWords src) with
  | none => none
  | some rs =>
    some (List.replicate (27 - rs.length) 48 ++ ((rs.take 27).map charAt62).reverse)

/-- Decoder digit list: `parts[i] = base62Value(String.fromCharCode(src[i]))`
into a `Uint8Array` (ToUint8 wraps mod 256). -/
def decodeParts (src : List Nat) : List Int :=
  src.map fun c => (base62Value c) % 256

/-- Byte expansion of one 32-bit remainder word in `fastDecodeBase62`:
`(remainder >> sh) & 0xFF` on a JS `Number` applies ToInt32 first. -/
def word4 (r : Int) : List Nat :=
  writeBigInt 4 (toInt32 r)

/-- The `fastDecodeBase62` function of `base62.ts`. Its long-division loop
always terminates because the decoder's word values are nonnegative (proved
below as `decodeRems_isSome`), so the fuel `(valI 62 parts).toNat + 2` is
sufficient and the `none` branch of the loop is unreachable. The check
`if (n < 4) return false` fires exactly when a sixth remainder word exists.
Word `j` (1-based) occupies bytes `[20 - 4*j, 20 - 4*j + 4)`; the leading
`20 - 4*k` bytes are zero-filled. -/
def fastDecodeBase62 (src : List Nat) : Option (List Nat) :=
  if src.length = 27 then
    match passLoop 62 (2 ^ 32) ((valI 62 (decodeParts src)).toNat + 2) (decodeParts src) with
    | none => none
    | some rs =>
      if rs.length ≤ 5 then
        some (List.replicate (20 - 4 * rs.length) 0 ++ ((rs.map word4).reverse).flatten)
      else none
  else none

/-- UTF-8 encoding of a list of UTF-16 code units, as `new TextEncoder()`
performs before `fastDecodeBase62` sees the string. Code units at or above
`0x80` encode to two or more bytes (lone surrogates actually become the
three-byte replacement character; only the byte count matters here, and it is
three either way). -/
def utf8Encode (s : List Nat) : List Nat :=
  s.flatMap fun c =>
    if c < 128 then [c]
    else if c < 2048 then [192 + c / 64, 128 + c % 64]
    else [224 + c / 4096, 128 + (c / 64) % 64, 128 + c % 64]

/-- The public `decodeBase62` of `base62.ts`: UTF-8 encode, then fast decode;
a `false` result becomes a thrown error (`none`). -/
def decodeBase62 (s : List Nat) : Option (List Nat) :=
  fastDecodeBase62 (utf8Encode s)

/-! ## Long-division pass: fold invariant -/

theorem pass_fold_inv (S D : Int) (hS : 1 ≤ S) (hD : 1 ≤ D) :
    ∀ (bp : List Int) (q : List Int) (r : Int),
    (∀ c ∈ bp, 0 ≤ c) → (∀ x ∈ q, 0 ≤ x) → 0 ≤ r → r < D →
    (∀ h ∈ q.head?, 1 ≤ h) →
    (∀ x ∈ (List.foldl (passStep S D) (q, r) bp).1, 0 ≤ x) ∧
    0 ≤ (List.foldl (passStep S D) (q, r) bp).2 ∧
    (List.foldl (passStep S D) (q, r) bp).2 < D ∧
    (∀ h ∈ (List.foldl (passStep S D) (q, r) bp).1.head?, 1 ≤ h) ∧
    valI S (List.foldl (passStep S D) (q, r) bp).1 * D +
        (List.foldl (passStep S D) (q, r) bp).2 =
      (valI S q * D + r) * S ^ bp.length + valI S bp := by
  intro bp
  induction bp with
  | nil =>
    intro q r hbp hq hr hrD hhead
    refine ⟨hq, hr, hrD, hhead, ?_⟩
    simp [valI]
  | cons c t ih =>
    intro q r hbp hq hr hrD hhead
    have hc : 0 ≤ c := hbp c (List.mem_cons_self ..)
    have ht : ∀ x ∈ t, 0 ≤ x := fun x hx => hbp x (List.mem_cons_of_mem _ hx)
    have hvpos : 0 ≤ c + r * S := by positivity
    have hDpos : (0:Int) < D := by omega
    have hdig : (c + r * S).fdiv D = (c + r * S) / D := Int.fdiv_eq_ediv _ (by omega)
    have hrem : (c + r * S).tmod D = (c + r * S) % D := Int.tmod_eq_emod hvpos (by omega)
    have hremlt : (c + r * S) % D < D := Int.emod_lt_of_pos _ hDpos
    have hremge : 0 ≤ (c + r * S) % D := Int.emod_nonneg _ (by omega)
    have hdignn : 0 ≤ (c + r * S) / D := Int.ediv_nonneg hvpos (by omega)
    have hdm : D * ((c + r * S) / D) + (c + r * S) % D = c + r * S :=
      Int.ediv_add_emod _ _
    rw [List.foldl_cons]
    by_cases hskip : q = [] ∧ (c + r * S).fdiv D = 0
    · have hstep : passStep S D (q, r) c = (q, (c + r * S).tmod D) := by
        rw [passStep, if_pos hskip]
      rw [hstep]
      obtain ⟨hq0, hd0⟩ := hskip
      rw [hd0] at hdig
      have hvltD : c + r * S < D := by
        rw [← hdm, ← hdig]
        omega
      obtain ⟨a1, a2, a3, a4, a5⟩ := ih q ((c + r * S).tmod D) ht hq
        (by rw [hrem]; exact hremge) (by rw [hrem]; exact hremlt) hhead
      refine ⟨a1, a2, a3, a4, ?_⟩
      rw [a5, hq0]
      have hnil : valI S ([] : List Int) = 0 := rfl
      have hmod : (c + r * S) % D = c + r * S := Int.emod_eq_of_lt hvpos hvltD
      rw [hrem, hmod, hnil, valI_cons, List.length_cons]
      ring
    · have hstep : passStep S D (q, r) c =
          (q ++ [(c + r * S).fdiv D], (c + r * S).tmod D) := by
        rw [passStep, if_neg hskip]
      rw [hstep]
      have hq' : ∀ x ∈ q ++ [(c + r * S).fdiv D], 0 ≤ x := by
        intro x hx
        rcases List.mem_append.mp hx with h | h
        · exact hq x h
        · simp at h
          rw [h, hdig]
          exact hdignn
      have hhead' : ∀ h ∈ (q ++ [(c + r * S).fdiv D]).head?, 1 ≤ h := by
        intro h hh
        cases q with
        | nil =>
          have hne : (c + r * S).fdiv D ≠ 0 := fun h0 => hskip ⟨rfl, h0⟩
          have hd0 : 0 ≤ (c + r * S).fdiv D := by rw [hdig]; exact hdignn
          have hh' := hh
          simp [Option.mem_def] at hh'
          omega
        | cons a q' =>
          have hh' := hh
          simp [Option.mem_def] at hh'
          have ha := hhead a rfl
          omega
      obtain ⟨a1, a2, a3, a4, a5⟩ := ih (q ++ [(c + r * S).fdiv D]) ((c + r * S).tmod D)
        ht hq' (by rw [hrem]; exact hremge) (by rw [hrem]; exact hremlt) hhead'
      refine ⟨a1, a2, a3, a4, ?_⟩
      rw [a5, valI_append]
      have hnil : valI S ([] : List Int) = 0 := rfl
      simp only [valI_cons, List.length_cons, List.length_nil, pow_zero, pow_one,
        hdig, hrem, hnil]
      linear_combination (S ^ t.length : Int) * hdm

/-- Properties of one full pass on a nonnegative word list. -/
theorem pass_spec (S D : Int) (hS : 1 ≤ S) (hD : 1 ≤ D) (bp : List Int)
    (hbp : ∀ c ∈ bp, 0 ≤ c) :
    (∀ x ∈ (pass S D bp).1, 0 ≤ x) ∧
    0 ≤ (pass S D bp).2 ∧ (pass S D bp).2 < D ∧
    (∀ h ∈ (pass S D bp).1.head?, 1 ≤ h) ∧
    valI S (pass S D bp).1 * D + (pass S D bp).2 = valI S bp := by
  obtain ⟨a1, a2, a3, a4, a5⟩ :=
    pass_fold_inv S D hS hD bp [] 0 hbp (by simp) le_rfl (by omega) (by simp)
  refine ⟨a1, a2, a3, a4, ?_⟩
  rw [show pass S D bp = List.foldl (passStep S D) ([], 0) bp from rfl, a5]
  simp [valI]

/-- A nonempty quotient has positive value (its head digit is at least 1). -/
theorem valI_pos_of_ne_nil (S : Int) (hS : 1 ≤ S) (q : List Int) (hq : q ≠ [])
    (hnn : ∀ x ∈ q, 0 ≤ x) (hhead : ∀ h ∈ q.head?, 1 ≤ h) : 1 ≤ valI S q := by
  cases q with
  | nil => exact absurd rfl hq
  | cons a t =>
    have ha : 1 ≤ a := hhead a rfl
    exact valI_pos_of_head S a t hS ha (fun y hy => hnn y (List.mem_cons_of_mem _ hy))

/-! ## Long-division loop: characterization, termination, fuel independence -/

theorem passLoop_spec (S D : Int) (hS : 1 ≤ S) (hD : 2 ≤ D) :
    ∀ (fuel : Nat) (bp rs : List Int), (∀ c ∈ bp, 0 ≤ c) →
    passLoop S D fuel bp = some rs →
    (∀ r ∈ rs, 0 ≤ r ∧ r < D) ∧
    lsbVal D rs = valI S bp ∧
    (rs = [] ↔ bp = []) ∧
    valI S bp < D ^ rs.length ∧
    (2 ≤ rs.length → D ^ (rs.length - 1) ≤ valI S bp) := by
  intro fuel
  induction fuel with
  | zero => intro bp rs _ h; simp [passLoop] at h
  | succ f ih =>
    intro bp rs hbp h
    rw [passLoop] at h
    by_cases hnil : bp = []
    · rw [if_pos hnil] at h
      have hrs : rs = [] := by
        cases h; rfl
      subst hrs; subst hnil
      refine ⟨by simp, by simp [lsbVal, valI], by simp, ?_, by simp⟩
      simp [valI]
    · rw [if_neg hnil] at h
      obtain ⟨q1, q2, q3, q4, q5⟩ := pass_spec S D hS (by omega) bp hbp
      cases hrec : passLoop S D f (pass S D bp).1 with
      | none => rw [hrec] at h; exact absurd h (by simp)
      | some rs' =>
        rw [hrec] at h
        have hrs : rs = (pass S D bp).2 :: rs' := by
          cases h; rfl
        subst hrs
        obtain ⟨b1, b2, b3, b4, b5⟩ := ih (pass S D bp).1 rs' q1 hrec
        have hqval : 0 ≤ valI S (pass S D bp).1 := valI_nonneg _ _ (by omega) q1
        have hDpow : (0:Int) < D ^ rs'.length := pow_pos (by omega) _
        refine ⟨?_, ?_, ?_, ?_, ?_⟩
        · intro r hr
          rcases List.mem_cons.mp hr with h' | h'
          · rw [h']; exact ⟨q2, q3⟩
          · exact b1 r h'
        · have : lsbVal D ((pass S D bp).2 :: rs') =
              lsbVal D rs' * D + (pass S D bp).2 := rfl
          rw [this, b2]
          linarith [q5]
        · constructor
          · intro h'; simp at h'
          · intro h'; exact absurd h' hnil
        · rw [List.length_cons, pow_succ]
          have h1 : valI S bp = valI S (pass S D bp).1 * D + (pass S D bp).2 := q5.symm
          nlinarith
        · intro hlen
          rw [List.length_cons] at hlen ⊢
          have hne : rs' ≠ [] := by
            intro h0
            rw [h0] at hlen
            simp at hlen
          have hq_ne : (pass S D bp).1 ≠ [] := fun h0 => hne (b3.2 h0)
          have hq1 : 1 ≤ valI S (pass S D bp).1 :=
            valI_pos_of_ne_nil S hS _ hq_ne q1 q4
          rcases Nat.lt_or_ge rs'.length 2 with hl | hl
          · have hlen1 : rs'.length = 1 := by
              have h0 : rs'.length ≠ 0 := fun h0 => hne (List.length_eq_zero.mp h0)
              omega
            have : (rs'.length + 1 - 1 : Nat) = 1 := by omega
            rw [this, pow_one]
            nlinarith
          · have hlow := b5 hl
            have : (rs'.length + 1 - 1 : Nat) = rs'.length - 1 + 1 := by omega
            rw [this, pow_succ]
            have hDpow2 : (0:Int) < D ^ (rs'.length - 1) := pow_pos (by omega) _
            nlinarith

theorem passLoop_isSome (S D : Int) (hS : 1 ≤ S) (hD : 2 ≤ D) :
    ∀ (n : Nat) (bp : List Int), (∀ c ∈ bp, 0 ≤ c) → (valI S bp).toNat < n →
    (passLoop S D (n + 1) bp).isSome := by
  intro n
  induction n using Nat.strong_induction_on with
  | _ n ihn =>
    intro bp hbp hval
    match n, hval with
    | Nat.succ m, hval =>
      rw [passLoop]
      by_cases hnil : bp = []
      · rw [if_pos hnil]; rfl
      · rw [if_neg hnil]
        obtain ⟨q1, q2, q3, q4, q5⟩ := pass_spec S D hS (by omega) bp hbp
        have hqnn : 0 ≤ valI S (pass S D bp).1 := valI_nonneg _ _ (by omega) q1
        have hbpnn : 0 ≤ valI S bp := valI_nonneg _ _ (by omega) hbp
        by_cases hlow : valI S bp < D
        · have hqz : (pass S D bp).1 = [] := by
            by_contra hne
            have := valI_pos_of_ne_nil S hS _ hne q1 q4
            nlinarith
          rw [hqz]
          have h1 : passLoop S D (m + 1) [] = some [] := by
            rw [passLoop]
            simp
          rw [h1]
          rfl
        · have hqlt : valI S (pass S D bp).1 < valI S bp := by
            have hqpos : 1 ≤ valI S (pass S D bp).1 := by
              by_contra hle
              have hq0 : valI S (pass S D bp).1 = 0 := by omega
              rw [hq0] at q5
              omega
            nlinarith
          have hih := ihn m (by omega) (pass S D bp).1 q1 (by omega)
          obtain ⟨rs, hrs⟩ := Option.isSome_iff_exists.mp hih
          rw [hrs]; rfl

theorem passLoop_mono_succ (S D : Int) :
    ∀ (f : Nat) (bp rs : List Int), passLoop S D f bp = some rs →
    passLoop S D (f + 1) bp = some rs := by
  intro f
  induction f with
  | zero => intro bp rs h; simp [passLoop] at h
  | succ g ih =>
    intro bp rs h
    rw [passLoop] at h
    rw [passLoop]
    by_cases hnil : bp = []
    · rw [if_pos hnil] at h ⊢; exact h
    · rw [if_neg hnil] at h ⊢
      cases hrec : passLoop S D g (pass S D bp).1 with
      | none => rw [hrec] at h; exact absurd h (by simp)
      | some rs' =>
        rw [hrec] at h
        rw [ih _ _ hrec]
        exact h

theorem passLoop_mono (S D : Int) (f g : Nat) (bp rs : List Int) (hfg : f ≤ g)
    (h : passLoop S D f bp = some rs) : passLoop S D g bp = some rs := by
  induction g with
  | zero =>
    have : f = 0 := by omega
    subst this; exact h
  | succ k ih =>
    rcases Nat.lt_or_ge f (k + 1) with hlt | hge
    · exact passLoop_mono_succ S D k bp rs (ih (by omega))
    · have : f = k + 1 := by omega
      subst this; exact h

theorem passLoop_shrink (S D : Int) :
    ∀ (f : Nat) (bp rs : List Int), passLoop S D f bp = some rs →
    passLoop S D (rs.length + 1) bp = some rs := by
  intro f
  induction f with
  | zero => intro bp rs h; simp [passLoop] at h
  | succ g ih =>
    intro bp rs h
    rw [passLoop] at h
    by_cases hnil : bp = []
    · rw [if_pos hnil] at h
      have hrs : rs = [] := by cases h; rfl
      subst hrs; subst hnil
      rw [passLoop, if_pos rfl]
    · rw [if_neg hnil] at h
      cases hrec : passLoop S D g (pass S D bp).1 with
      | none => rw [hrec] at h; exact absurd h (by simp)
      | some rs' =>
        rw [hrec] at h
        have hrs : rs = (pass S D bp).2 :: rs' := by cases h; rfl
        subst hrs
        rw [List.length_cons]
        rw [passLoop, if_neg hnil, ih _ _ hrec]

/-! ## Divergence of the loop on a nonempty quotient cycle -/

theorem iterate_fixed (f : List Int → List Int) (F : List Int) (hfix : f F = F) :
    ∀ m : Nat, Nat.iterate f m F = F := by
  intro m
  induction m with
  | zero => rfl
  | succ k ih => rw [Function.iterate_succ_apply, hfix, ih]

theorem iterate_ne_nil_of_cycle (f : List Int → List Int) (bp F : List Int) (k : Nat)
    (hreach : Nat.iterate f k bp = F) (hfix : f F = F) (hne : F ≠ [])
    (hsmall : ∀ j, j < k → Nat.iterate f j bp ≠ []) :
    ∀ j : Nat, Nat.iterate f j bp ≠ [] := by
  intro j
  rcases Nat.lt_or_ge j k with hlt | hge
  · exact hsmall j hlt
  · have hj : j = (j - k) + k := by omega
    rw [hj, Function.iterate_add_apply, hreach, iterate_fixed f F hfix]
    exact hne

theorem passLoop_none_of_iter_ne_nil (S D : Int) (bp : List Int)
    (h : ∀ j : Nat, Nat.iterate (fun l => (pass S D l).1) j bp ≠ []) :
    ∀ fuel : Nat, passLoop S D fuel bp = none := by
  intro fuel
  induction fuel generalizing bp with
  | zero => rfl
  | succ f ih =>
    rw [passLoop]
    have hbp : bp ≠ [] := h 0
    rw [if_neg hbp]
    have hnext : ∀ j : Nat,
        Nat.iterate (fun l => (pass S D l).1) j (pass S D bp).1 ≠ [] := by
      intro j
      have := h (j + 1)
      rwa [Function.iterate_succ_apply] at this
    rw [ih _ hnext]

/-! ## Byte serialization: `writeBigInt` and `bytesToBigInt` -/

theorem writeBigInt_length (len : Nat) (v : Int) : (writeBigInt len v).length = len := by
  simp [writeBigInt]

theorem writeBigInt_lt_256 (len : Nat) (v : Int) : ∀ x ∈ writeBigInt len v, x < 256 := by
  intro x hx
  simp only [writeBigInt, List.mem_map] at hx
  obtain ⟨i, _, hi⟩ := hx
  rw [← hi]
  have h1 : 0 ≤ v.fdiv (2 ^ (8 * (len - 1 - i))) % 256 := Int.emod_nonneg _ (by norm_num)
  have h2 : v.fdiv (2 ^ (8 * (len - 1 - i))) % 256 < 256 :=
    Int.emod_lt_of_pos _ (by norm_num)
  unfold bigByte
  omega

theorem bigByte_emod (v : Int) (sh len : Nat) (h : sh + 8 ≤ 8 * len) :
    bigByte v sh = bigByte (v % 2 ^ (8 * len)) sh := by
  unfold bigByte
  have hsh : (0:Int) < 2 ^ sh := by positivity
  have hsplit : (2:Int) ^ (8 * len) = 2 ^ (8 * len - sh) * 2 ^ sh := by
    rw [← pow_add]
    congr 1
    omega
  have hsplit8 : (2:Int) ^ (8 * len - sh) = 2 ^ (8 * len - sh - 8) * 256 := by
    rw [show (256:Int) = 2 ^ 8 from rfl, ← pow_add]
    congr 1
    omega
  have hv : v = v % 2 ^ (8 * len) + 2 ^ (8 * len) * (v / 2 ^ (8 * len)) := by
    rw [Int.emod_add_ediv]
  set w := v % 2 ^ (8 * len) with hw
  set k := v / 2 ^ (8 * len) with hk
  have hfd : v.fdiv (2 ^ sh) = w / 2 ^ sh + 2 ^ (8 * len - sh) * k := by
    rw [Int.fdiv_eq_ediv _ (by positivity)]
    conv_lhs => rw [hv]
    rw [hsplit]
    have : w + 2 ^ (8 * len - sh) * 2 ^ sh * k =
        w + (2 ^ (8 * len - sh) * k) * 2 ^ sh := by ring
    rw [this, Int.add_mul_ediv_right _ _ (by positivity : (0:Int) < 2 ^ sh).ne']
  have hfd2 : (w : Int).fdiv (2 ^ sh) = w / 2 ^ sh := Int.fdiv_eq_ediv _ (by positivity)
  rw [hfd, hfd2]
  have : w / 2 ^ sh + 2 ^ (8 * len - sh) * k =
      w / 2 ^ sh + (2 ^ (8 * len - sh - 8) * k) * 256 := by
    rw [hsplit8]; ring
  rw [this, Int.add_mul_emod_self]

theorem writeBigInt_emod (len : Nat) (v : Int) :
    writeBigInt len v = writeBigInt len (v % 2 ^ (8 * len)) := by
  unfold writeBigInt
  apply List.map_congr_left
  intro i hi
  simp only [List.mem_range] at hi
  exact bigByte_emod v _ len (by omega)

theorem writeBigInt_succ (len : Nat) (v : Int) :
    writeBigInt (len + 1) v =
      bigByte v (8 * len) :: writeBigInt len (v % 2 ^ (8 * len)) := by
  unfold writeBigInt
  rw [List.range_succ_eq_map, List.map_cons]
  congr 1
  rw [List.map_map]
  apply List.map_congr_left
  intro i hi
  simp only [List.mem_range] at hi
  have h1 : (len + 1 - 1 - (i + 1)) = len - 1 - i := by omega
  simp only [Function.comp_apply, h1]
  exact bigByte_emod v _ len (by omega)

theorem bytesToBigInt_cons (x : Nat) (l : List Nat) :
    bytesToBigInt (x :: l) = (x : Int) * 256 ^ l.length + bytesToBigInt l := by
  unfold bytesToBigInt
  rw [List.map_cons, valI_cons, List.length_map]

theorem bytesToBigInt_nonneg (l : List Nat) : 0 ≤ bytesToBigInt l := by
  rw [bytesToBigInt_eq_msbVal]
  positivity

theorem bytesToBigInt_lt (l : List Nat) (h : ∀ x ∈ l, x < 256) :
    bytesToBigInt l < 2 ^ (8 * l.length) := by
  rw [bytesToBigInt_eq_msbVal]
  have := msbVal_lt 256 l h
  have h2 : (256:Nat) ^ l.length = 2 ^ (8 * l.length) := by
    rw [show (256:Nat) = 2 ^ 8 from rfl, ← pow_mul]
  exact_mod_cast h2 ▸ this

theorem bytesToBigInt_writeBigInt (len : Nat) (v : Int) (h0 : 0 ≤ v)
    (hlt : v < 2 ^ (8 * len)) : bytesToBigInt (writeBigInt len v) = v := by
  induction len generalizing v with
  | zero =>
    have hv0 : v = 0 := by
      have h1 : (2:Int) ^ (8 * 0) = 1 := by norm_num
      rw [h1] at hlt
      omega
    subst hv0
    rfl
  | succ n ih =>
    rw [writeBigInt_succ, bytesToBigInt_cons, writeBigInt_length]
    have hp : (0:Int) < 2 ^ (8 * n) := by positivity
    have hmod0 : 0 ≤ v % 2 ^ (8 * n) := Int.emod_nonneg _ (by positivity)
    have hmodlt : v % 2 ^ (8 * n) < 2 ^ (8 * n) := Int.emod_lt_of_pos _ hp
    rw [ih _ hmod0 hmodlt]
    have hdiv0 : 0 ≤ v / 2 ^ (8 * n) := Int.ediv_nonneg h0 (by positivity)
    have hdivlt : v / 2 ^ (8 * n) < 256 := by
      apply Int.ediv_lt_of_lt_mul hp
      calc v < 2 ^ (8 * (n + 1)) := hlt
      _ = 2 ^ (8 * n) * 256 := by
        rw [show (256:Int) = 2 ^ 8 from rfl, ← pow_add]
        congr 1
      _ = 256 * 2 ^ (8 * n) := by ring
    have hbb : bigByte v (8 * n) = (v / 2 ^ (8 * n)).toNat := by
      unfold bigByte
      rw [Int.fdiv_eq_ediv _ (by positivity)]
      rw [Int.emod_eq_of_lt hdiv0 hdivlt]
    rw [hbb]
    have hcast : ((v / 2 ^ (8 * n)).toNat : Int) = v / 2 ^ (8 * n) :=
      Int.toNat_of_nonneg hdiv0
    rw [hcast]
    have h256 : (256:Int) ^ n = 2 ^ (8 * n) := by
      rw [show (256:Int) = 2 ^ 8 from rfl, ← pow_mul]
    rw [h256]
    rw [Int.ediv_add_emod']

theorem writeBigInt_bytesToBigInt (bs : List Nat) (h : ∀ x ∈ bs, x < 256) :
    writeBigInt bs.length (bytesToBigInt bs) = bs := by
  induction bs with
  | nil => rfl
  | cons x t ih =>
    rw [List.length_cons, writeBigInt_succ, bytesToBigInt_cons]
    have ht : ∀ y ∈ t, y < 256 := fun y hy => h y (List.mem_cons_of_mem _ hy)
    have hx : x < 256 := h x (List.mem_cons_self ..)
    have h256 : (256:Int) ^ t.length = 2 ^ (8 * t.length) := by
      rw [show (256:Int) = 2 ^ 8 from rfl, ← pow_mul]
    have htv0 : 0 ≤ bytesToBigInt t := bytesToBigInt_nonneg t
    have htvlt : bytesToBigInt t < 2 ^ (8 * t.length) := bytesToBigInt_lt t ht
    have hmod : ((x:Int) * 256 ^ t.length + bytesToBigInt t) % 2 ^ (8 * t.length) =
        bytesToBigInt t := by
      rw [h256]
      rw [show (x:Int) * 2 ^ (8 * t.length) + bytesToBigInt t =
        bytesToBigInt t + x * 2 ^ (8 * t.length) from by ring]
      rw [Int.add_mul_emod_self]
      exact Int.emod_eq_of_lt htv0 htvlt
    have hbb : bigByte ((x:Int) * 256 ^ t.length + bytesToBigInt t) (8 * t.length) = x := by
      unfold bigByte
      rw [Int.fdiv_eq_ediv _ (by positivity)]
      rw [h256]
      rw [show (x:Int) * 2 ^ (8 * t.length) + bytesToBigInt t =
        bytesToBigInt t + x * 2 ^ (8 * t.length) from by ring]
      rw [Int.add_mul_ediv_right _ _ (by positivity : (0:Int) < 2 ^ (8 * t.length)).ne']
      rw [Int.ediv_eq_zero_of_lt htv0 htvlt]
      simp only [zero_add]
      rw [Int.emod_eq_of_lt (by positivity) (by exact_mod_cast hx)]
      simp
    rw [hmod, hbb, ih ht]

/-! ## Destructuring 20-byte buffers -/

theorem list20_elim (P : List Nat → Prop)
    (H : ∀ b0 b1 b2 b3 b4 b5 b6 b7 b8 b9 b10 b11 b12 b13 b14 b15 b16 b17 b18 b19 : Nat, P [b0, b1, b2, b3, b4, b5, b6, b7, b8, b9, b10, b11, b12, b13, b14, b15, b16, b17, b18, b19]) :
    ∀ b : List Nat, b.length = 20 → P b := by
  intro b hb
  rcases b with _ | ⟨b0, b⟩
  · simp at hb
  rcases b with _ | ⟨b1, b⟩
  · simp at hb
  rcases b with _ | ⟨b2, b⟩
  · simp at hb
  rcases b with _ | ⟨b3, b⟩
  · simp at hb
  rcases b with _ | ⟨b4, b⟩
  · simp at hb
  rcases b with _ | ⟨b5, b⟩
  · simp at hb
  rcases b with _ | ⟨b6, b⟩
  · simp at hb
  rcases b with _ | ⟨b7, b⟩
  · simp at hb
  rcases b with _ | ⟨b8, b⟩
  · simp at hb
  rcases b with _ | ⟨b9, b⟩
  · simp at hb
  rcases b with _ | ⟨b10, b⟩
  · simp at hb
  rcases b with _ | ⟨b11, b⟩
  · simp at hb
  rcases b with _ | ⟨b12, b⟩
  · simp at hb
  rcases b with _ | ⟨b13, b⟩
  · simp at hb
  rcases b with _ | ⟨b14, b⟩
  · simp at hb
  rcases b with _ | ⟨b15, b⟩
  · simp at hb
  rcases b with _ | ⟨b16, b⟩
  · simp at hb
  rcases b with _ | ⟨b17, b⟩
  · simp at hb
  rcases b with _ | ⟨b18, b⟩
  · simp at hb
  rcases b with _ | ⟨b19, b⟩
  · simp at hb
  rcases b with _ | ⟨b20, b⟩
  · exact H b0 b1 b2 b3 b4 b5 b6 b7 b8 b9 b10 b11 b12 b13 b14 b15 b16 b17 b18 b19
  · simp at hb

/-- Buffers on which the encoder's word splitting stays nonnegative: none of
the four-byte words has its sign bit set, i.e. bytes 0, 4, 8, 12 and 16 are
below `0x80`. On any other 20-byte buffer the JS `<<` produces a negative
Int32 word (see the divergence theorems below). -/
def goodBuffer (b : List Nat) : Prop :=
  b.length = 20 ∧ (∀ x ∈ b, x < 256) ∧
  b.getD 0 0 < 128 ∧ b.getD 4 0 < 128 ∧ b.getD 8 0 < 128 ∧
  b.getD 12 0 < 128 ∧ b.getD 16 0 < 128

theorem encodeWords_good (b : List Nat) (hg : goodBuffer b) :
    (∀ c ∈ encodeWords b, 0 ≤ c) ∧
    valI (2 ^ 32) (encodeWords b) = (msbVal 256 b : Int) ∧
    (encodeWords b) ≠ [] := by
  obtain ⟨hlen, hbytes, h0, h4, h8, h12, h16⟩ := hg
  revert hbytes h0 h4 h8 h12 h16
  refine list20_elim (fun b => (∀ x ∈ b, x < 256) → b.getD 0 0 < 128 →
    b.getD 4 0 < 128 → b.getD 8 0 < 128 → b.getD 12 0 < 128 → b.getD 16 0 < 128 →
    (∀ c ∈ encodeWords b, 0 ≤ c) ∧
    valI (2 ^ 32) (encodeWords b) = (msbVal 256 b : Int) ∧
    (encodeWords b) ≠ []) ?_ b hlen
  intro b0 b1 b2 b3 b4 b5 b6 b7 b8 b9 b10 b11 b12 b13 b14 b15 b16 b17 b18 b19
  intro hbytes h0 h4 h8 h12 h16
  simp only [List.getD_cons_zero, List.getD_cons_succ] at h0 h4 h8 h12 h16
  have e0 : b0 < 256 := hbytes b0 (by simp)
  have e1 : b1 < 256 := hbytes b1 (by simp)
  have e2 : b2 < 256 := hbytes b2 (by simp)
  have e3 : b3 < 256 := hbytes b3 (by simp)
  have e4 : b4 < 256 := hbytes b4 (by simp)
  have e5 : b5 < 256 := hbytes b5 (by simp)
  have e6 : b6 < 256 := hbytes b6 (by simp)
  have e7 : b7 < 256 := hbytes b7 (by simp)
  have e8 : b8 < 256 := hbytes b8 (by simp)
  have e9 : b9 < 256 := hbytes b9 (by simp)
  have e10 : b10 < 256 := hbytes b10 (by simp)
  have e11 : b11 < 256 := hbytes b11 (by simp)
  have e12 : b12 < 256 := hbytes b12 (by simp)
  have e13 : b13 < 256 := hbytes b13 (by simp)
  have e14 : b14 < 256 := hbytes b14 (by simp)
  have e15 : b15 < 256 := hbytes b15 (by simp)
  have e16 : b16 < 256 := hbytes b16 (by simp)
  have e17 : b17 < 256 := hbytes b17 (by simp)
  have e18 : b18 < 256 := hbytes b18 (by simp)
  have e19 : b19 < 256 := hbytes b19 (by simp)
  have hp24 : (2:Int) ^ 24 = 16777216 := by norm_num
  have hp16 : (2:Int) ^ 16 = 65536 := by norm_num
  have hp8 : (2:Int) ^ 8 = 256 := by norm_num
  have hp31 : (2:Int) ^ 31 = 2147483648 := by norm_num
  have n0 : 0 ≤ (b0:Int) * 2 ^ 24 + (b1:Int) * 2 ^ 16 + (b2:Int) * 2 ^ 8 + (b3:Int) := by
    rw [hp24, hp16, hp8]
    omega
  have w0 : toInt32 ((b0:Int) * 2 ^ 24 + (b1:Int) * 2 ^ 16 + (b2:Int) * 2 ^ 8 + (b3:Int)) = (b0:Int) * 2 ^ 24 + (b1:Int) * 2 ^ 16 + (b2:Int) * 2 ^ 8 + (b3:Int) := by
    apply toInt32_eq_of_lt _ n0
    rw [hp24, hp16, hp8, hp31]
    omega
  have n1 : 0 ≤ (b4:Int) * 2 ^ 24 + (b5:Int) * 2 ^ 16 + (b6:Int) * 2 ^ 8 + (b7:Int) := by
    rw [hp24, hp16, hp8]
    omega
  have w1 : toInt32 ((b4:Int) * 2 ^ 24 + (b5:Int) * 2 ^ 16 + (b6:Int) * 2 ^ 8 + (b7:Int)) = (b4:Int) * 2 ^ 24 + (b5:Int) * 2 ^ 16 + (b6:Int) * 2 ^ 8 + (b7:Int) := by
    apply toInt32_eq_of_lt _ n1
    rw [hp24, hp16, hp8, hp31]
    omega
  have n2 : 0 ≤ (b8:Int) * 2 ^ 24 + (b9:Int) * 2 ^ 16 + (b10:Int) * 2 ^ 8 + (b11:Int) := by
    rw [hp24, hp16, hp8]
    omega
  have w2 : toInt32 ((b8:Int) * 2 ^ 24 + (b9:Int) * 2 ^ 16 + (b10:Int) * 2 ^ 8 + (b11:Int)) = (b8:Int) * 2 ^ 24 + (b9:Int) * 2 ^ 16 + (b10:Int) * 2 ^ 8 + (b11:Int) := by
    apply toInt32_eq_of_lt _ n2
    rw [hp24, hp16, hp8, hp31]
    omega
  have n3 : 0 ≤ (b12:Int) * 2 ^ 24 + (b13:Int) * 2 ^ 16 + (b14:Int) * 2 ^ 8 + (b15:Int) := by
    rw [hp24, hp16, hp8]
    omega
  have w3 : toInt32 ((b12:Int) * 2 ^ 24 + (b13:Int) * 2 ^ 16 + (b14:Int) * 2 ^ 8 + (b15:Int)) = (b12:Int) * 2 ^ 24 + (b13:Int) * 2 ^ 16 + (b14:Int) * 2 ^ 8 + (b15:Int) := by
    apply toInt32_eq_of_lt _ n3
    rw [hp24, hp16, hp8, hp31]
    omega
  have n4 : 0 ≤ (b16:Int) * 2 ^ 24 + (b17:Int) * 2 ^ 16 + (b18:Int) * 2 ^ 8 + (b19:Int) := by
    rw [hp24, hp16, hp8]
    omega
  have w4 : toInt32 ((b16:Int) * 2 ^ 24 + (b17:Int) * 2 ^ 16 + (b18:Int) * 2 ^ 8 + (b19:Int)) = (b16:Int) * 2 ^ 24 + (b17:Int) * 2 ^ 16 + (b18:Int) * 2 ^ 8 + (b19:Int) := by
    apply toInt32_eq_of_lt _ n4
    rw [hp24, hp16, hp8, hp31]
    omega
  simp only [encodeWords, List.getD_cons_zero, List.getD_cons_succ]
  rw [w0, w1, w2, w3, w4]
  refine ⟨?_, ?_, by simp⟩
  · intro c hc
    simp only [List.mem_cons, List.not_mem_nil, or_false] at hc
    rcases hc with h | h | h | h | h <;> rw [h]
    · exact n0
    · exact n1
    · exact n2
    · exact n3
    · exact n4
  · simp only [valI, List.foldl_cons, List.foldl_nil, msbVal]
    push_cast
    ring

theorem two_pow_160_lt_62_pow_27 : (2:Nat) ^ 160 < 62 ^ 27 := by decide

/-- Characterization of `fastEncodeBase62` on good buffers: the loop
terminates within 27 passes and the output is the character image of the
27-digit base-62 representation of the buffer's value. -/
theorem fastEncodeBase62_good (b : List Nat) (hg : goodBuffer b) :
    ∃ ds : List Nat, ds.length = 27 ∧ (∀ d ∈ ds, d < 62) ∧
      msbVal 62 ds = msbVal 256 b ∧
      ∀ fuel, 28 ≤ fuel →
        fastEncodeBase62 fuel b = some (ds.map (fun (d : Nat) => charAt62 (d : Int))) := by
  obtain ⟨hnn, hval, hne⟩ := encodeWords_good b hg
  have hvnn : 0 ≤ valI (2 ^ 32) (encodeWords b) := valI_nonneg _ _ (by norm_num) hnn
  have hterm := passLoop_isSome (2 ^ 32) 62 (by norm_num) (by norm_num)
    ((valI (2 ^ 32) (encodeWords b)).toNat + 1) (encodeWords b) hnn (by omega)
  obtain ⟨rs, hrs⟩ := Option.isSome_iff_exists.mp hterm
  obtain ⟨s1, s2, s3, s4, s5⟩ :=
    passLoop_spec (2 ^ 32) 62 (by norm_num) (by norm_num) _ (encodeWords b) rs hnn hrs
  have hNlt : msbVal 256 b < 2 ^ 160 := by
    have h1 := msbVal_lt 256 b (fun x hx => hg.2.1 x hx)
    rw [hg.1] at h1
    have h2 : (256:Nat) ^ 20 = 2 ^ 160 := by
      rw [show (256:Nat) = 2 ^ 8 from rfl, ← pow_mul]
    rw [h2] at h1
    exact h1
  have hlen27 : rs.length ≤ 27 := by
    by_contra hcon
    push_neg at hcon
    have h2 : 2 ≤ rs.length := by omega
    have hlow := s5 h2
    rw [hval] at hlow
    have hlowN : 62 ^ (rs.length - 1) ≤ msbVal 256 b := by exact_mod_cast hlow
    have hmono : (62:Nat) ^ 27 ≤ 62 ^ (rs.length - 1) :=
      Nat.pow_le_pow_right (by norm_num) (by omega)
    have h160 := two_pow_160_lt_62_pow_27
    omega
  have hex := passLoop_shrink _ _ _ _ _ hrs
  have hall : ∀ fuel, 28 ≤ fuel → passLoop (2 ^ 32) 62 fuel (encodeWords b) = some rs :=
    fun fuel hf => passLoop_mono _ _ _ _ _ _ (by omega) hex
  have hcast_rs : (rs.map Int.toNat).map (Nat.cast : Nat → Int) = rs := by
    rw [List.map_map]
    have : ∀ r ∈ rs, (Nat.cast ∘ Int.toNat) r = id r := by
      intro r hr
      have := (s1 r hr).1
      simp only [Function.comp_apply, id]
      omega
    rw [List.map_congr_left this, List.map_id]
  refine ⟨List.replicate (27 - rs.length) 0 ++ (rs.map Int.toNat).reverse, ?_, ?_, ?_, ?_⟩
  · simp
    omega
  · intro d hd
    rcases List.mem_append.mp hd with h | h
    · have := List.eq_of_mem_replicate h
      omega
    · rw [List.mem_reverse] at h
      obtain ⟨r, hr, hrd⟩ := List.mem_map.mp h
      have := (s1 r hr).2
      have h0 := (s1 r hr).1
      omega
  · have hchain : (msbVal 62 (List.replicate (27 - rs.length) 0 ++ (rs.map Int.toNat).reverse) : Int) =
        (msbVal 256 b : Int) := by
      rw [msbVal_replicate_zero]
      rw [← valI_map_cast 62]
      have hmr : ((rs.map Int.toNat).reverse).map (Nat.cast : Nat → Int) = rs.reverse := by
        rw [List.map_reverse, hcast_rs]
      rw [hmr]
      have h62 : ((62:Nat) : Int) = 62 := by norm_num
      rw [h62, valI_reverse_eq_lsbVal, s2, hval]
    exact_mod_cast hchain
  · intro fuel hf
    have htake : rs.take 27 = rs := List.take_of_length_le hlen27
    have henc : fastEncodeBase62 fuel b =
        some (List.replicate (27 - rs.length) 48 ++ ((rs.take 27).map charAt62).reverse) := by
      unfold fastEncodeBase62
      rw [hall fuel hf]
    rw [henc, htake, Option.some.injEq]
    rw [List.map_append, List.map_replicate, List.map_reverse, List.map_map]
    have e1 : charAt62 ((0:Nat) : Int) = 48 := by decide
    have e2 : rs.map ((fun (d : Nat) => charAt62 (d : Int)) ∘ Int.toNat) = rs.map charAt62 := by
      apply List.map_congr_left
      intro r hr
      have h0 := (s1 r hr).1
      simp only [Function.comp_apply, Int.toNat_of_nonneg h0]
    rw [e1, e2]

/-! ## Decoder characterization -/

theorem lexCompareInt_eq_zero_iff_eq :
    ∀ xs ys : List Nat, xs.length = ys.length →
    (lexCompareInt xs ys = 0 ↔ xs = ys) := by
  intro xs
  induction xs with
  | nil =>
    intro ys hl
    cases ys with
    | nil => simp [lexCompareInt]
    | cons y yt => simp at hl
  | cons x xt ih =>
    intro ys hl
    cases ys with
    | nil => simp at hl
    | cons y yt =>
      have hlen : xt.length = yt.length := by simpa using hl
      rw [lexCompareInt]
      by_cases hxy : x = y
      · subst hxy
        rw [if_pos rfl, ih yt hlen]
        simp
      · rw [if_neg hxy]
        constructor
        · intro h
          have : x = y := by omega
          exact absurd this hxy
        · intro h
          injection h with h1 h2
          exact absurd h1 hxy

theorem msbVal_inj (B : Nat) (xs ys : List Nat) (hlen : xs.length = ys.length)
    (hx : ∀ x ∈ xs, x < B) (hy : ∀ y ∈ ys, y < B)
    (hval : msbVal B xs = msbVal B ys) : xs = ys := by
  have h := (lexCompareInt_value B xs ys hlen hx hy).2
  exact (lexCompareInt_eq_zero_iff_eq xs ys hlen).mp (h.mpr hval)

theorem word4_spec (r : Int) (h0 : 0 ≤ r) (hlt : r < 2 ^ 32) :
    bytesToBigInt (word4 r) = r ∧ (word4 r).length = 4 ∧ ∀ x ∈ word4 r, x < 256 := by
  have he : word4 r = writeBigInt 4 r := by
    unfold word4
    rw [writeBigInt_emod 4 (toInt32 r)]
    have h32 : (8 * 4 : Nat) = 32 := by norm_num
    rw [h32, toInt32_emod]
    rw [Int.emod_eq_of_lt h0 hlt]
  rw [he]
  refine ⟨?_, writeBigInt_length 4 r, writeBigInt_lt_256 4 r⟩
  apply bytesToBigInt_writeBigInt 4 r h0
  have h32 : (8 * 4 : Nat) = 32 := by norm_num
  rw [h32]
  exact hlt

theorem bytesToBigInt_append (l₁ l₂ : List Nat) :
    bytesToBigInt (l₁ ++ l₂) =
      bytesToBigInt l₁ * 256 ^ l₂.length + bytesToBigInt l₂ := by
  unfold bytesToBigInt
  rw [List.map_append, valI_append, List.length_map]

theorem decode_bytes_val (rs : List Int) (h : ∀ r ∈ rs, 0 ≤ r ∧ r < 2 ^ 32) :
    bytesToBigInt (((rs.map word4).reverse).flatten) = lsbVal (2 ^ 32) rs ∧
    (((rs.map word4).reverse).flatten).length = 4 * rs.length ∧
    (∀ x ∈ ((rs.map word4).reverse).flatten, x < 256) := by
  induction rs with
  | nil =>
    refine ⟨rfl, rfl, ?_⟩
    intro x hx
    simp at hx
  | cons r rest ih =>
    have hr := h r (List.mem_cons_self ..)
    have hrest : ∀ r ∈ rest, 0 ≤ r ∧ r < 2 ^ 32 :=
      fun x hx => h x (List.mem_cons_of_mem _ hx)
    obtain ⟨ih1, ih2, ih3⟩ := ih hrest
    obtain ⟨w1, w2, w3⟩ := word4_spec r hr.1 hr.2
    have hstruct : ((r :: rest).map word4).reverse.flatten =
        ((rest.map word4).reverse).flatten ++ word4 r := by
      rw [List.map_cons, List.reverse_cons, List.flatten_append]
      simp
    rw [hstruct]
    refine ⟨?_, ?_, ?_⟩
    · rw [bytesToBigInt_append, ih1, w1, w2]
      have h256 : (256:Int) ^ 4 = 2 ^ 32 := by norm_num
      rw [h256]
      rfl
    · rw [List.length_append, ih2, w2, List.length_cons]
      ring
    · intro x hx
      rcases List.mem_append.mp hx with h' | h'
      · exact ih3 x h'
      · exact w3 x h'

theorem decodeParts_nonneg (src : List Nat) :
    ∀ c ∈ decodeParts src, 0 ≤ c := by
  intro c hc
  simp only [decodeParts, List.mem_map] at hc
  obtain ⟨a, _, ha⟩ := hc
  rw [← ha]
  exact Int.emod_nonneg _ (by norm_num)

theorem decodeParts_val (src : List Nat) :
    valI 62 (decodeParts src) = (msbVal 62 (src.map digitOfChar) : Int) := by
  have he : decodeParts src = (src.map digitOfChar).map (Nat.cast : Nat → Int) := by
    unfold decodeParts digitOfChar
    rw [List.map_map]
    apply List.map_congr_left
    intro c _
    simp only [Function.comp_apply]
    rw [Int.toNat_of_nonneg (Int.emod_nonneg _ (by norm_num))]
  rw [he]
  have h62 : ((62:Nat) : Int) = 62 := by norm_num
  rw [← h62, valI_map_cast]

theorem fastDecodeBase62_spec (src : List Nat) (hlen : src.length = 27) :
    (2 ^ 160 ≤ msbVal 62 (src.map digitOfChar) → fastDecodeBase62 src = none) ∧
    (msbVal 62 (src.map digitOfChar) < 2 ^ 160 →
      ∃ bs : List Nat, fastDecodeBase62 src = some bs ∧ bs.length = 20 ∧
        (∀ x ∈ bs, x < 256) ∧ msbVal 256 bs = msbVal 62 (src.map digitOfChar)) := by
  have hnn := decodeParts_nonneg src
  have hvnn : 0 ≤ valI 62 (decodeParts src) := valI_nonneg _ _ (by norm_num) hnn
  have hterm := passLoop_isSome 62 (2 ^ 32) (by norm_num) (by norm_num)
    ((valI 62 (decodeParts src)).toNat + 1) (decodeParts src) hnn (by omega)
  obtain ⟨rs, hrs⟩ := Option.isSome_iff_exists.mp hterm
  obtain ⟨s1, s2, s3, s4, s5⟩ :=
    passLoop_spec 62 (2 ^ 32) (by norm_num) (by norm_num) _ (decodeParts src) rs hnn hrs
  rw [decodeParts_val] at s2 s4 s5
  have hpow : ∀ k : Nat, ((2:Int) ^ 32) ^ k = 2 ^ (32 * k) := by
    intro k
    rw [← pow_mul]
  have hfuel : ((valI 62 (decodeParts src)).toNat + 1) + 1 =
      (valI 62 (decodeParts src)).toNat + 2 := by omega
  rw [hfuel] at hrs
  have hdef : fastDecodeBase62 src =
      (if rs.length ≤ 5 then
        some (List.replicate (20 - 4 * rs.length) 0 ++ ((rs.map word4).reverse).flatten)
      else none) := by
    unfold fastDecodeBase62
    rw [if_pos hlen, hrs]
  constructor
  · intro hbig
    have hlen6 : ¬ rs.length ≤ 5 := by
      intro hle
      rw [hpow] at s4
      have hmono : (2:Int) ^ (32 * rs.length) ≤ 2 ^ 160 :=
        pow_le_pow_right₀ (by norm_num) (by omega)
      have hcast : ((2:Nat) ^ 160 : Int) ≤ (msbVal 62 (src.map digitOfChar) : Int) := by
        exact_mod_cast hbig
      push_cast at hcast
      omega
    rw [hdef, if_neg hlen6]
  · intro hsmall
    have hlen5 : rs.length ≤ 5 := by
      by_contra hcon
      push_neg at hcon
      have h2 : 2 ≤ rs.length := by omega
      have hlow := s5 h2
      rw [hpow] at hlow
      have hmono : (2:Int) ^ 160 ≤ 2 ^ (32 * (rs.length - 1)) :=
        pow_le_pow_right₀ (by norm_num) (by omega)
      have hcast : (msbVal 62 (src.map digitOfChar) : Int) < ((2:Nat) ^ 160 : Int) := by
        exact_mod_cast hsmall
      push_cast at hcast
      omega
    have hdig : ∀ r ∈ rs, 0 ≤ r ∧ r < 2 ^ 32 := s1
    obtain ⟨d1, d2, d3⟩ := decode_bytes_val rs hdig
    refine ⟨List.replicate (20 - 4 * rs.length) 0 ++ ((rs.map word4).reverse).flatten,
      ?_, ?_, ?_, ?_⟩
    · rw [hdef, if_pos hlen5]
    · rw [List.length_append, List.length_replicate, d2]
      omega
    · intro x hx
      rcases List.mem_append.mp hx with h' | h'
      · have := List.eq_of_mem_replicate h'
        omega
      · exact d3 x h'
    · have hchain : (msbVal 256 (List.replicate (20 - 4 * rs.length) 0 ++
          ((rs.map word4).reverse).flatten) : Int) =
          (msbVal 62 (src.map digitOfChar) : Int) := by
        rw [msbVal_replicate_zero, ← bytesToBigInt_eq_msbVal, d1, s2]
      exact_mod_cast hchain

theorem utf8Encode_ascii (s : List Nat) (h : ∀ c ∈ s, c < 128) : utf8Encode s = s := by
  induction s with
  | nil => rfl
  | cons c t ih =>
    have hc : c < 128 := h c (List.mem_cons_self ..)
    have ht := ih (fun x hx => h x (List.mem_cons_of_mem _ hx))
    unfold utf8Encode at ht ⊢
    rw [List.flatMap_cons, if_pos hc, ht]
    rfl

/-- Round trip on good buffers: the encoder terminates and `decodeBase62`
inverts it exactly. -/
theorem roundtrip_good (b : List Nat) (hg : goodBuffer b) :
    ∃ s : List Nat, s.length = 27 ∧
      (∀ fuel, 28 ≤ fuel → fastEncodeBase62 fuel b = some s) ∧
      decodeBase62 s = some b := by
  obtain ⟨ds, hds1, hds2, hds3, hds4⟩ := fastEncodeBase62_good b hg
  refine ⟨ds.map (fun (d : Nat) => charAt62 (d : Int)), by simp [hds1], hds4, ?_⟩
  have hascii : ∀ c ∈ ds.map (fun (d : Nat) => charAt62 (d : Int)), c < 128 := by
    intro c hc
    obtain ⟨d, hd, hdc⟩ := List.mem_map.mp hc
    rw [← hdc]
    exact charAt62_lt_128 d (hds2 d hd)
  have hdigits : (ds.map (fun (d : Nat) => charAt62 (d : Int))).map digitOfChar = ds := by
    rw [List.map_map]
    have : ∀ d ∈ ds, (digitOfChar ∘ fun (d : Nat) => charAt62 (d : Int)) d = id d := by
      intro d hd
      simp only [Function.comp_apply, id]
      exact digitOfChar_charAt62 d (hds2 d hd)
    rw [List.map_congr_left this, List.map_id]
  unfold decodeBase62
  rw [utf8Encode_ascii _ hascii]
  have hlen27 : (ds.map (fun (d : Nat) => charAt62 (d : Int))).length = 27 := by
    simp [hds1]
  have hNlt : msbVal 62 ((ds.map (fun (d : Nat) => charAt62 (d : Int))).map digitOfChar) <
      2 ^ 160 := by
    rw [hdigits, hds3]
    have h1 := msbVal_lt 256 b (fun x hx => hg.2.1 x hx)
    rw [hg.1] at h1
    have h2 : (256:Nat) ^ 20 = 2 ^ 160 := by
      rw [show (256:Nat) = 2 ^ 8 from rfl, ← pow_mul]
    rw [h2] at h1
    exact h1
  obtain ⟨bs, hbs1, hbs2, hbs3, hbs4⟩ :=
    (fastDecodeBase62_spec _ hlen27).2 hNlt
  rw [hbs1]
  congr 1
  apply msbVal_inj 256 bs b (by rw [hbs2, hg.1]) hbs3 hg.2.1
  rw [hbs4, hdigits, hds3]

/-! ## Divergence of the encoder on buffers with a high bit in a word's
leading byte -/

/-- One step of the quotient evolution in the encoder's `while` loop. -/
def encodeQuotientStep (l : List Int) : List Int :=
  (pass (2 ^ 32) 62 l).1

/-- The nonempty quotient at which the encoder's loop gets stuck: one pass
maps it to itself, so the JS loop cycles forever once it is reached. -/
def stuckQuotient : List Int :=
  [-1, -70409300, -4083739397, -915320900, -704093000]

theorem stuckQuotient_fixed : encodeQuotientStep stuckQuotient = stuckQuotient := by
  decide

theorem stuckQuotient_ne_nil : stuckQuotient ≠ [] := by
  decide

/-- The all-0xFF buffer (the `KSUID.Max` bytes). -/
def maxBuffer : List Nat := List.replicate 20 255

/-- A buffer whose only nonzero byte is byte 0 with the sign bit set. -/
def highBit0Buffer : List Nat := 128 :: List.replicate 19 0

theorem maxBuffer_reaches_stuck :
    Nat.iterate encodeQuotientStep 22 (encodeWords maxBuffer) = stuckQuotient := by
  decide

theorem maxBuffer_early_ne_nil :
    ∀ j : Nat, j < 22 → Nat.iterate encodeQuotientStep j (encodeWords maxBuffer) ≠ [] := by
  decide

theorem fastEncodeBase62_maxBuffer_none (fuel : Nat) :
    fastEncodeBase62 fuel maxBuffer = none := by
  have h := passLoop_none_of_iter_ne_nil (2 ^ 32) 62 (encodeWords maxBuffer)
    (iterate_ne_nil_of_cycle encodeQuotientStep (encodeWords maxBuffer) stuckQuotient 22
      maxBuffer_reaches_stuck stuckQuotient_fixed stuckQuotient_ne_nil
      maxBuffer_early_ne_nil) fuel
  unfold fastEncodeBase62
  rw [h]

theorem highBit0Buffer_reaches_stuck :
    Nat.iterate encodeQuotientStep 28 (encodeWords highBit0Buffer) = stuckQuotient := by
  decide

theorem highBit0Buffer_early_ne_nil :
    ∀ j : Nat, j < 28 → Nat.iterate encodeQuotientStep j (encodeWords highBit0Buffer) ≠ [] := by
  decide

theorem fastEncodeBase62_highBit0_none (fuel : Nat) :
    fastEncodeBase62 fuel highBit0Buffer = none := by
  have h := passLoop_none_of_iter_ne_nil (2 ^ 32) 62 (encodeWords highBit0Buffer)
    (iterate_ne_nil_of_cycle encodeQuotientStep (encodeWords highBit0Buffer) stuckQuotient 28
      highBit0Buffer_reaches_stuck stuckQuotient_fixed stuckQuotient_ne_nil
      highBit0Buffer_early_ne_nil) fuel
  unfold fastEncodeBase62
  rw [h]

/-! ## `Uint128` (`uint128.ts`) -/

/-- The `Uint128` class: `values = [low, high]`, two `BigInt` fields. The
class never normalizes them, so a carry can leave `high` outside `[0, 2^64)`. -/
structure Uint128 where
  low : Int
  high : Int
deriving DecidableEq

/-- All 64 bits set, `0xFFFFFFFFFFFFFFFFn`. -/
def M64 : Int := 18446744073709551615

/-- The static `ZERO`. -/
def Uint128.ZERO : Uint128 := ⟨0, 0⟩

/-- The static `ONE` (`new Uint128(0n, 1n)`). -/
def Uint128.ONE : Uint128 := ⟨1, 0⟩

/-- The static `MAX` (both halves all-ones). -/
def Uint128.MAX : Uint128 := ⟨M64, M64⟩

/-- `Uint128.fromPayload`: `high` from bytes 0-7, `low` from bytes 8-15. -/
def Uint128.fromPayload (p : List Nat) : Uint128 :=
  ⟨bytesToBigInt ((p.drop 8).take 8), bytesToBigInt (p.take 8)⟩

/-- `Uint128.add`: carry bumps `high` without masking it. -/
def Uint128.add (a b : Uint128) : Uint128 :=
  if a.low + b.low > M64 then
    ⟨(a.low + b.low) % 18446744073709551616, a.high + b.high + 1⟩
  else
    ⟨a.low + b.low, a.high + b.high⟩

/-- `Uint128.subtract`: a borrow leaves `high` unmasked (it can become
negative). -/
def Uint128.subtract (a b : Uint128) : Uint128 :=
  if b.low ≤ a.low then
    ⟨a.low - b.low, a.high - b.high⟩
  else
    ⟨a.low + 18446744073709551616 - b.low, a.high - 1 - b.high⟩

/-- `Uint128.increment`: on a low-half wrap, `high + 1` is not reduced modulo
`2^64`, so `increment MAX = ⟨0, 2^64⟩`, not `ZERO`. -/
def Uint128.increment (u : Uint128) : Uint128 :=
  if u.low + 1 > M64 then ⟨0, u.high + 1⟩ else ⟨u.low + 1, u.high⟩

/-- `Uint128.compare`: high half first, raw `BigInt` comparison. -/
def Uint128.cmp (a b : Uint128) : Int :=
  if a.high < b.high then -1
  else if b.high < a.high then 1
  else if a.low < b.low then -1
  else if b.low < a.low then 1
  else 0

/-- `Uint128.equals`: strict equality of the raw field values. -/
def Uint128.equals (a b : Uint128) : Bool :=
  a.low == b.low && a.high == b.high

/-- `Uint128.toKSUID(timestamp)`: 4 timestamp bytes via `Number` shifts, then
`high` and `low` via `writeBigInt`. -/
def Uint128.toKSUID (u : Uint128) (timestamp : Int) : List Nat :=
  writeBigInt 4 (toInt32 timestamp) ++ writeBigInt 8 u.high ++ writeBigInt 8 u.low

/-- `uint128Payload`: payload of a KSUID byte buffer
(`slice(TIMESTAMP_BYTE_LENGTH)`). -/
def uint128Payload (b : List Nat) : Uint128 :=
  Uint128.fromPayload (b.drop 4)

/-! ## `KSUID` (`ksuid.ts`) -/

namespace KSUID

/-- The Nil KSUID's bytes, all zero. -/
def NilBytes : List Nat := List.replicate 20 0

/-- The Max KSUID's bytes, all `0xFF`. -/
def MaxBytes : List Nat := List.replicate 20 255

/-- `getTimestamp`: `(b[0] << 24) | (b[1] << 16) | (b[2] << 8) | b[3]`.
The shifted bytes occupy disjoint bit ranges, so the `|` accumulation equals
the unsigned word wrapped by ToInt32; for `b[0] ≥ 0x80` the result is
negative. -/
def getTimestamp (b : List Nat) : Int :=
  toInt32 (b.getD 0 0 * 2 ^ 24 + b.getD 1 0 * 2 ^ 16 + b.getD 2 0 * 2 ^ 8 + b.getD 3 0)

/-- `next()`: increment the payload; bump the timestamp only when the
incremented value equals `ZERO` (which, because `increment` leaves the carry
in the high half, never happens for payloads read from bytes). -/
def next (b : List Nat) : List Nat :=
  let timestamp := getTimestamp b
  let nextValue := (uint128Payload b).increment
  if nextValue.equals Uint128.ZERO then nextValue.toKSUID (timestamp + 1)
  else nextValue.toKSUID timestamp

/-- `prev()`: subtract one from the payload; decrement the timestamp only when
the result equals `MAX` (which, because `subtract` leaves the borrow in the
high half, never happens for payloads read from bytes). -/
def prev (b : List Nat) : List Nat :=
  let timestamp := getTimestamp b
  let prevValue := (uint128Payload b).subtract Uint128.ONE
  if prevValue.equals Uint128.MAX then prevValue.toKSUID (timestamp - 1)
  else prevValue.toKSUID timestamp

/-- `compare`: byte loop returning `this[i] - other[i]` at the first
difference, 0 otherwise; on the 20-byte buffers of two KSUIDs this is exactly
the signed lexicographic comparison. -/
def compare (a b : List Nat) : Int :=
  lexCompareInt a b

/-- `parse`: length check, lexicographic range check against the
`MIN_STRING_ENCODED` and `MAX_STRING_ENCODED` constants (JS string relational
operators), then `decodeBase62`; the final `new KSUID` length check always
passes on a successful decode, which returns 20 bytes. -/
def parse (s : List Nat) : Option (List Nat) :=
  if s.length ≠ 27 then none
  else if lexLtB s MIN_STRING_ENCODED || lexLtB MAX_STRING_ENCODED s then none
  else
    match decodeBase62 s with
    | none => none
    | some bs => if bs.length = 20 then some bs else none

/-- `equals`: compares `this.toString()` with `other.toString()`; each
`toString` runs `fastEncodeBase62`, so the comparison has a value only when
both encodings terminate. -/
def equals (fuel : Nat) (a b : List Nat) : Option Bool :=
  match fastEncodeBase62 fuel a, fastEncodeBase62 fuel b with
  | some x, some y => some (x == y)
  | _, _ => none

end KSUID

/-! ## Byte-level facts about `toKSUID`, `getTimestamp`, `uint128Payload` -/

theorem writeBigInt4_explicit (v : Int) :
    writeBigInt 4 v = [bigByte v 24, bigByte v 16, bigByte v 8, bigByte v 0] := by
  simp only [writeBigInt, List.range_succ, List.range_zero]
  norm_num

theorem writeBigInt8_extract (v : Int) :
    bytesToBigInt (writeBigInt 8 v) = v % 18446744073709551616 := by
  rw [writeBigInt_emod]
  have h64 : (2:Int) ^ (8 * 8) = 18446744073709551616 := by norm_num
  rw [h64]
  apply bytesToBigInt_writeBigInt
  · exact Int.emod_nonneg _ (by norm_num)
  · rw [h64]
    exact Int.emod_lt_of_pos _ (by norm_num)

theorem writeBigInt8_congr (v w : Int)
    (h : v % 18446744073709551616 = w % 18446744073709551616) :
    writeBigInt 8 v = writeBigInt 8 w := by
  rw [writeBigInt_emod 8 v, writeBigInt_emod 8 w]
  have h64 : (2:Int) ^ (8 * 8) = 18446744073709551616 := by norm_num
  rw [h64, h]

theorem writeBigInt4_extract (v : Int) :
    bytesToBigInt (writeBigInt 4 v) = v % 4294967296 := by
  rw [writeBigInt_emod]
  have h32 : (2:Int) ^ (8 * 4) = 4294967296 := by norm_num
  rw [h32]
  apply bytesToBigInt_writeBigInt
  · exact Int.emod_nonneg _ (by norm_num)
  · rw [h32]
    exact Int.emod_lt_of_pos _ (by norm_num)

theorem uint128Payload_toKSUID (u : Uint128) (t : Int) :
    uint128Payload (u.toKSUID t) =
      ⟨u.low % 18446744073709551616, u.high % 18446744073709551616⟩ := by
  unfold uint128Payload Uint128.toKSUID Uint128.fromPayload
  rw [List.append_assoc]
  rw [List.drop_left' (writeBigInt_length 4 (toInt32 t))]
  rw [List.take_left' (writeBigInt_length 8 u.high)]
  rw [List.drop_left' (writeBigInt_length 8 u.high)]
  rw [List.take_of_length_le (le_of_eq (writeBigInt_length 8 u.low))]
  rw [writeBigInt8_extract, writeBigInt8_extract]

theorem getTimestamp_toKSUID (u : Uint128) (t : Int) :
    KSUID.getTimestamp (u.toKSUID t) = toInt32 t := by
  unfold Uint128.toKSUID KSUID.getTimestamp
  rw [writeBigInt4_explicit]
  simp only [List.cons_append, List.getD_cons_zero, List.getD_cons_succ]
  have hsum : ((bigByte (toInt32 t) 24 : Int)) * 2 ^ 24 +
      (bigByte (toInt32 t) 16 : Int) * 2 ^ 16 +
      (bigByte (toInt32 t) 8 : Int) * 2 ^ 8 + (bigByte (toInt32 t) 0 : Int) =
      bytesToBigInt (writeBigInt 4 (toInt32 t)) := by
    rw [writeBigInt4_explicit]
    unfold bytesToBigInt
    simp only [List.map_cons, List.map_nil, valI, List.foldl_cons, List.foldl_nil]
    push_cast
    ring
  rw [hsum, writeBigInt4_extract]
  have h1 : toInt32 t % 4294967296 = t % 4294967296 := by
    have := toInt32_emod t
    norm_num at this ⊢
    omega
  rw [h1]
  unfold toInt32
  omega

theorem getTimestamp_toInt32 (b : List Nat) :
    toInt32 (KSUID.getTimestamp b) = KSUID.getTimestamp b := by
  unfold KSUID.getTimestamp
  rw [toInt32_idem]

/-- A valid 20-byte KSUID buffer. -/
def validBytes (b : List Nat) : Prop :=
  b.length = 20 ∧ ∀ x ∈ b, x < 256

theorem take4_explicit (b : List Nat) (h : 4 ≤ b.length) :
    b.take 4 = [b.getD 0 0, b.getD 1 0, b.getD 2 0, b.getD 3 0] := by
  rcases b with _ | ⟨b0, b⟩
  · simp at h
  rcases b with _ | ⟨b1, b⟩
  · simp at h
  rcases b with _ | ⟨b2, b⟩
  · simp at h
  rcases b with _ | ⟨b3, b⟩
  · simp at h
  simp

theorem writeBigInt_roundtrip_len (n : Nat) (bs : List Nat) (hlen : bs.length = n)
    (h : ∀ x ∈ bs, x < 256) : writeBigInt n (bytesToBigInt bs) = bs := by
  subst hlen
  exact writeBigInt_bytesToBigInt bs h

theorem writeBigInt4_congr (v w : Int) (h : v % 2 ^ 32 = w % 2 ^ 32) :
    writeBigInt 4 v = writeBigInt 4 w := by
  rw [writeBigInt_emod 4 v, writeBigInt_emod 4 w]
  have h32 : (8 * 4 : Nat) = 32 := by norm_num
  rw [h32, h]

/-- Reassembly: a valid buffer is the concatenation of the serialized
timestamp and the serialized payload halves. -/
theorem valid_reassemble (b : List Nat) (hv : validBytes b) :
    writeBigInt 4 (toInt32 (KSUID.getTimestamp b)) ++
      writeBigInt 8 (uint128Payload b).high ++
      writeBigInt 8 (uint128Payload b).low = b := by
  obtain ⟨hlen, hbytes⟩ := hv
  have ht4 : b.take 4 = [b.getD 0 0, b.getD 1 0, b.getD 2 0, b.getD 3 0] :=
    take4_explicit b (by omega)
  have hl4 : (b.take 4).length = 4 := by
    rw [List.length_take]
    omega
  have hu : (b.getD 0 0 : Int) * 2 ^ 24 + (b.getD 1 0 : Int) * 2 ^ 16 +
      (b.getD 2 0 : Int) * 2 ^ 8 + (b.getD 3 0 : Int) = bytesToBigInt (b.take 4) := by
    rw [ht4]
    unfold bytesToBigInt
    simp only [List.map_cons, List.map_nil, valI, List.foldl_cons, List.foldl_nil]
    push_cast
    ring
  have hts : writeBigInt 4 (toInt32 (KSUID.getTimestamp b)) = b.take 4 := by
    unfold KSUID.getTimestamp
    rw [toInt32_idem]
    have hc : writeBigInt 4 (toInt32 ((b.getD 0 0 : Int) * 2 ^ 24 +
          (b.getD 1 0 : Int) * 2 ^ 16 + (b.getD 2 0 : Int) * 2 ^ 8 +
          (b.getD 3 0 : Int))) =
        writeBigInt 4 (bytesToBigInt (b.take 4)) := by
      apply writeBigInt4_congr
      rw [← hu]
      exact toInt32_emod _
    rw [hc]
    exact writeBigInt_roundtrip_len 4 (b.take 4) hl4
      (fun x hx => hbytes x (List.mem_of_mem_take hx))
  have hPH : (uint128Payload b).high = bytesToBigInt ((b.drop 4).take 8) := rfl
  have hPL : (uint128Payload b).low = bytesToBigInt (((b.drop 4).drop 8).take 8) := rfl
  have hh : writeBigInt 8 (uint128Payload b).high = (b.drop 4).take 8 := by
    rw [hPH]
    have hl8 : ((b.drop 4).take 8).length = 8 := by
      rw [List.length_take, List.length_drop]
      omega
    exact writeBigInt_roundtrip_len 8 _ hl8
      (fun x hx => hbytes x (List.mem_of_mem_drop (List.mem_of_mem_take hx)))
  have hlo : writeBigInt 8 (uint128Payload b).low = (b.drop 4).drop 8 := by
    rw [hPL]
    have heq : ((b.drop 4).drop 8).take 8 = (b.drop 4).drop 8 := by
      apply List.take_of_length_le
      rw [List.length_drop, List.length_drop]
      omega
    rw [heq]
    have hl8 : ((b.drop 4).drop 8).length = 8 := by
      rw [List.length_drop, List.length_drop]
      omega
    exact writeBigInt_roundtrip_len 8 _ hl8
      (fun x hx => hbytes x (List.mem_of_mem_drop (List.mem_of_mem_drop hx)))
  rw [hts, hh, hlo, List.append_assoc, List.take_append_drop, List.take_append_drop]

theorem payload_bounds (b : List Nat) (hv : validBytes b) :
    0 ≤ (uint128Payload b).low ∧ (uint128Payload b).low ≤ M64 ∧
    0 ≤ (uint128Payload b).high ∧ (uint128Payload b).high ≤ M64 := by
  obtain ⟨hlen, hbytes⟩ := hv
  have hPH : (uint128Payload b).high = bytesToBigInt ((b.drop 4).take 8) := rfl
  have hPL : (uint128Payload b).low = bytesToBigInt (((b.drop 4).drop 8).take 8) := rfl
  have hlh : ((b.drop 4).take 8).length = 8 := by
    rw [List.length_take, List.length_drop]
    omega
  have hll : (((b.drop 4).drop 8).take 8).length = 8 := by
    rw [List.length_take, List.length_drop, List.length_drop]
    omega
  have hbh := bytesToBigInt_lt ((b.drop 4).take 8)
    (fun x hx => hbytes x (List.mem_of_mem_drop (List.mem_of_mem_take hx)))
  have hbl := bytesToBigInt_lt (((b.drop 4).drop 8).take 8)
    (fun x hx => hbytes x (List.mem_of_mem_drop (List.mem_of_mem_drop (List.mem_of_mem_take hx))))
  rw [hlh] at hbh
  rw [hll] at hbl
  have h64 : (2:Int) ^ (8 * 8) = M64 + 1 := by unfold M64; norm_num
  rw [h64] at hbh hbl
  have hnh := bytesToBigInt_nonneg ((b.drop 4).take 8)
  have hnl := bytesToBigInt_nonneg (((b.drop 4).drop 8).take 8)
  rw [hPH, hPL]
  omega

theorem toKSUID_valid (u : Uint128) (t : Int) : validBytes (u.toKSUID t) := by
  constructor
  · unfold Uint128.toKSUID
    rw [List.length_append, List.length_append, writeBigInt_length,
      writeBigInt_length, writeBigInt_length]
  · intro x hx
    unfold Uint128.toKSUID at hx
    rcases List.mem_append.mp hx with h | h
    · rcases List.mem_append.mp h with h' | h'
      · exact writeBigInt_lt_256 _ _ x h'
      · exact writeBigInt_lt_256 _ _ x h'
    · exact writeBigInt_lt_256 _ _ x h

theorem next_eq_toKSUID (b : List Nat) (hv : validBytes b) :
    KSUID.next b = Uint128.toKSUID
      (if (uint128Payload b).low = M64 then ⟨0, (uint128Payload b).high + 1⟩
        else ⟨(uint128Payload b).low + 1, (uint128Payload b).high⟩)
      (KSUID.getTimestamp b) := by
  obtain ⟨h1, h2, h3, h4⟩ := payload_bounds b hv
  simp only [KSUID.next]
  by_cases hL : (uint128Payload b).low = M64
  · rw [if_pos hL]
    have hinc : (uint128Payload b).increment = ⟨0, (uint128Payload b).high + 1⟩ := by
      unfold Uint128.increment
      rw [if_pos (by omega)]
    rw [hinc]
    have hz : (⟨0, (uint128Payload b).high + 1⟩ : Uint128).equals Uint128.ZERO = false := by
      unfold Uint128.equals Uint128.ZERO
      simp only
      have hh : ((uint128Payload b).high + 1 == (0:Int)) = false := by
        rw [beq_eq_false_iff_ne]
        omega
      rw [hh, Bool.and_false]
    rw [hz]
    simp
  · rw [if_neg hL]
    have hinc : (uint128Payload b).increment =
        ⟨(uint128Payload b).low + 1, (uint128Payload b).high⟩ := by
      unfold Uint128.increment
      rw [if_neg (by omega)]
    rw [hinc]
    have hz : (⟨(uint128Payload b).low + 1, (uint128Payload b).high⟩ : Uint128).equals
        Uint128.ZERO = false := by
      unfold Uint128.equals Uint128.ZERO
      simp only
      have hl : ((uint128Payload b).low + 1 == (0:Int)) = false := by
        rw [beq_eq_false_iff_ne]
        omega
      rw [hl, Bool.false_and]
    rw [hz]
    simp

theorem prev_eq_toKSUID (b : List Nat) (hv : validBytes b) :
    KSUID.prev b = Uint128.toKSUID
      (if (uint128Payload b).low = 0 then ⟨M64, (uint128Payload b).high - 1⟩
        else ⟨(uint128Payload b).low - 1, (uint128Payload b).high⟩)
      (KSUID.getTimestamp b) := by
  obtain ⟨h1, h2, h3, h4⟩ := payload_bounds b hv
  simp only [KSUID.prev]
  by_cases hL : (uint128Payload b).low = 0
  · rw [if_pos hL]
    have hsub : (uint128Payload b).subtract Uint128.ONE =
        ⟨M64, (uint128Payload b).high - 1⟩ := by
      unfold Uint128.subtract Uint128.ONE
      simp only
      rw [if_neg (by omega)]
      have e1 : (uint128Payload b).low + 18446744073709551616 - 1 = M64 := by
        unfold M64
        omega
      have e2 : (uint128Payload b).high - 1 - 0 = (uint128Payload b).high - 1 := by
        omega
      rw [e1, e2]
    rw [hsub]
    have hz : (⟨M64, (uint128Payload b).high - 1⟩ : Uint128).equals Uint128.MAX = false := by
      unfold Uint128.equals Uint128.MAX
      simp only
      have hh : ((uint128Payload b).high - 1 == M64) = false := by
        rw [beq_eq_false_iff_ne]
        unfold M64
        unfold M64 at h4
        omega
      rw [hh, Bool.and_false]
    rw [hz]
    simp
  · rw [if_neg hL]
    have hsub : (uint128Payload b).subtract Uint128.ONE =
        ⟨(uint128Payload b).low - 1, (uint128Payload b).high⟩ := by
      unfold Uint128.subtract Uint128.ONE
      simp only
      rw [if_pos (by omega)]
      have e2 : (uint128Payload b).high - 0 = (uint128Payload b).high := by omega
      rw [e2]
    rw [hsub]
    have hz : (⟨(uint128Payload b).low - 1, (uint128Payload b).high⟩ : Uint128).equals
        Uint128.MAX = false := by
      unfold Uint128.equals Uint128.MAX
      simp only
      have hl : ((uint128Payload b).low - 1 == M64) = false := by
        rw [beq_eq_false_iff_ne]
        unfold M64
        unfold M64 at h2
        omega
      rw [hl, Bool.false_and]
    rw [hz]
    simp

theorem next_prev_cancel (b : List Nat) (hv : validBytes b) :
    KSUID.prev (KSUID.next b) = b := by
  obtain ⟨h1, h2, h3, h4⟩ := payload_bounds b hv
  rw [next_eq_toKSUID b hv]
  set u1 : Uint128 :=
    (if (uint128Payload b).low = M64 then ⟨0, (uint128Payload b).high + 1⟩
      else ⟨(uint128Payload b).low + 1, (uint128Payload b).high⟩) with hu1
  have hvx : validBytes (u1.toKSUID (KSUID.getTimestamp b)) := toKSUID_valid ..
  rw [prev_eq_toKSUID _ hvx]
  rw [uint128Payload_toKSUID, getTimestamp_toKSUID, getTimestamp_toInt32]
  have hM : M64 = 18446744073709551615 := rfl
  by_cases hL : (uint128Payload b).low = M64
  · rw [if_pos hL] at hu1
    have hlow : u1.low = 0 := by rw [hu1]
    have hhigh : u1.high = (uint128Payload b).high + 1 := by rw [hu1]
    rw [hlow, hhigh]
    simp only
    rw [if_pos (by norm_num)]
    conv_rhs => rw [← valid_reassemble b ⟨hv.1, hv.2⟩]
    unfold Uint128.toKSUID
    simp only
    congr 1
    · congr 1
      apply writeBigInt8_congr
      omega
    · apply writeBigInt8_congr
      rw [hL]
  · rw [if_neg hL] at hu1
    have hlow : u1.low = (uint128Payload b).low + 1 := by rw [hu1]
    have hhigh : u1.high = (uint128Payload b).high := by rw [hu1]
    rw [hlow, hhigh]
    simp only
    have hlmod : ((uint128Payload b).low + 1) % 18446744073709551616 =
        (uint128Payload b).low + 1 := by
      apply Int.emod_eq_of_lt (by omega)
      omega
    have hhmod : (uint128Payload b).high % 18446744073709551616 =
        (uint128Payload b).high := by
      apply Int.emod_eq_of_lt h3
      omega
    rw [hlmod, hhmod]
    rw [if_neg (by omega)]
    conv_rhs => rw [← valid_reassemble b ⟨hv.1, hv.2⟩]
    unfold Uint128.toKSUID
    simp only
    congr 3
    omega

theorem prev_next_cancel (b : List Nat) (hv : validBytes b) :
    KSUID.next (KSUID.prev b) = b := by
  obtain ⟨h1, h2, h3, h4⟩ := payload_bounds b hv
  rw [prev_eq_toKSUID b hv]
  set u1 : Uint128 :=
    (if (uint128Payload b).low = 0 then ⟨M64, (uint128Payload b).high - 1⟩
      else ⟨(uint128Payload b).low - 1, (uint128Payload b).high⟩) with hu1
  have hvx : validBytes (u1.toKSUID (KSUID.getTimestamp b)) := toKSUID_valid ..
  rw [next_eq_toKSUID _ hvx]
  rw [uint128Payload_toKSUID, getTimestamp_toKSUID, getTimestamp_toInt32]
  have hM : M64 = 18446744073709551615 := rfl
  by_cases hL : (uint128Payload b).low = 0
  · rw [if_pos hL] at hu1
    have hlow : u1.low = M64 := by rw [hu1]
    have hhigh : u1.high = (uint128Payload b).high - 1 := by rw [hu1]
    rw [hlow, hhigh]
    simp only
    have hlmod : M64 % 18446744073709551616 = M64 := by decide
    rw [hlmod]
    rw [if_pos rfl]
    conv_rhs => rw [← valid_reassemble b ⟨hv.1, hv.2⟩]
    unfold Uint128.toKSUID
    simp only
    congr 1
    · congr 1
      apply writeBigInt8_congr
      omega
    · apply writeBigInt8_congr
      rw [hL]
  · rw [if_neg hL] at hu1
    have hlow : u1.low = (uint128Payload b).low - 1 := by rw [hu1]
    have hhigh : u1.high = (uint128Payload b).high := by rw [hu1]
    rw [hlow, hhigh]
    simp only
    have hlmod : ((uint128Payload b).low - 1) % 18446744073709551616 =
        (uint128Payload b).low - 1 := by
      apply Int.emod_eq_of_lt (by omega)
      omega
    have hhmod : (uint128Payload b).high % 18446744073709551616 =
        (uint128Payload b).high := by
      apply Int.emod_eq_of_lt h3
      omega
    rw [hlmod, hhmod]
    rw [if_neg (by omega)]
    conv_rhs => rw [← valid_reassemble b ⟨hv.1, hv.2⟩]
    unfold Uint128.toKSUID
    simp only
    congr 3
    omega

/-! ## The bounded sequence generator -/

/-- Modelled from the spec: the repository's `sequence.ts` is not under
`src/`; only its type declaration (`index.d.ts`), its tests and its callers
are. Following section 4.4 of the spec, the sequence owns a seed and a
counter; `next` emits the seed with the low 16 payload bits replaced by the
counter (big-endian) and advances the counter, and fails once the counter is
exhausted. The exhaustion bound is the one pinned by the repository's own
test (`node.test.ts`: 65535 successful calls, then
`'Too many IDs were generated'`): calls fail from counter value `0xFFFF` on,
so 65535 identifiers are produced, not 65536. -/
def Sequence.nextS (seed : List Nat) (count : Nat) : Option (List Nat × Nat) :=
  if 65535 ≤ count then none
  else some (seed.take 18 ++ [count / 256, count % 256], count + 1)

/-- Emission of `k` successive identifiers starting from counter `count`;
`none` when any call fails. -/
def Sequence.emit (seed : List Nat) : Nat → Nat → Option (List (List Nat))
  | _, 0 => some []
  | count, Nat.succ k =>
    match Sequence.nextS seed count with
    | none => none
    | some (id, c') =>
      match Sequence.emit seed c' k with
      | none => none
      | some rest => some (id :: rest)

theorem Sequence.emit_isSome_iff (seed : List Nat) :
    ∀ (k count : Nat), (Sequence.emit seed count k).isSome ↔ (k = 0 ∨ count + k ≤ 65535) := by
  intro k
  induction k with
  | zero =>
    intro count
    simp [Sequence.emit]
  | succ n ih =>
    intro count
    rw [Sequence.emit]
    by_cases hc : 65535 ≤ count
    · rw [Sequence.nextS, if_pos hc]
      simp
      omega
    · rw [Sequence.nextS, if_neg hc]
      simp only
      cases hrec : Sequence.emit seed (count + 1) n with
      | none =>
        have hn := (ih (count + 1))
        rw [hrec] at hn
        simp at hn
        simp
        omega
      | some rest =>
        have hn := ih (count + 1)
        rw [hrec] at hn
        simp at hn
        simp
        omega

theorem Sequence.nextS_monotone (seed : List Nat) (hs : validBytes seed)
    (count : Nat) (h : count + 1 < 65535) :
    ∃ id1 id2 : List Nat,
      Sequence.nextS seed count = some (id1, count + 1) ∧
      Sequence.nextS seed (count + 1) = some (id2, count + 2) ∧
      KSUID.compare id1 id2 < 0 ∧
      id1.take 18 = seed.take 18 ∧ id2.take 18 = seed.take 18 := by
  obtain ⟨hlen, -⟩ := hs
  have h18 : (seed.take 18).length = 18 := by
    rw [List.length_take]
    omega
  refine ⟨seed.take 18 ++ [count / 256, count % 256],
    seed.take 18 ++ [(count + 1) / 256, (count + 1) % 256], ?_, ?_, ?_, ?_, ?_⟩
  · rw [Sequence.nextS, if_neg (by omega)]
  · rw [Sequence.nextS, if_neg (by omega)]
  · unfold KSUID.compare
    rw [lexCompareInt_append_left]
    have hd : count / 256 = (count + 1) / 256 ∧ count % 256 < (count + 1) % 256 ∨
        count / 256 < (count + 1) / 256 := by omega
    rcases hd with ⟨hq, hr⟩ | hq
    · rw [lexCompareInt, if_pos (by exact_mod_cast congrArg (Nat.cast : Nat → Int) hq),
        lexCompareInt, if_neg (by omega)]
      omega
    · rw [lexCompareInt, if_neg (by omega)]
      omega
  · rw [List.take_left' h18]
  · rw [List.take_left' h18]

theorem Sequence.emit_cap (seed : List Nat) :
    (Sequence.emit seed 0 65535).isSome ∧ Sequence.emit seed 0 65536 = none := by
  constructor
  · rw [Sequence.emit_isSome_iff]
    right
    omega
  · cases hrec : Sequence.emit seed 0 65536 with
    | none => rfl
    | some l =>
      have h := Sequence.emit_isSome_iff seed 65536 0
      rw [hrec] at h
      simp at h

/-! ## Parsing: alphabet and bound facts -/

theorem lexCompareInt_swap : ∀ xs ys : List Nat, lexCompareInt xs ys = - lexCompareInt ys xs := by
  intro xs
  induction xs with
  | nil => intro ys; cases ys <;> simp [lexCompareInt]
  | cons x xt ih =>
    intro ys
    cases ys with
    | nil => simp [lexCompareInt]
    | cons y yt =>
      simp only [lexCompareInt]
      by_cases hxy : x = y
      · rw [if_pos hxy, if_pos hxy.symm, ih yt]
      · rw [if_neg hxy, if_neg (fun h => hxy h.symm)]
        ring

theorem lexLtB_ge_replicate48 :
    ∀ (s : List Nat) (n : Nat), n ≤ s.length → (∀ c ∈ s, 48 ≤ c) →
    lexLtB s (List.replicate n 48) = false := by
  intro s
  induction s with
  | nil =>
    intro n hn _
    have hz : n = 0 := by simpa using hn
    subst hz
    rfl
  | cons c t ih =>
    intro n hn hc
    cases n with
    | zero => rfl
    | succ m =>
      rw [List.replicate_succ, lexLtB]
      have h48 : 48 ≤ c := hc c (List.mem_cons_self ..)
      rw [if_neg (by omega)]
      by_cases hgt : 48 < c
      · rw [if_pos hgt]
      · rw [if_neg hgt]
        exact ih m (by simpa using hn) (fun a ha => hc a (List.mem_cons_of_mem _ ha))

theorem alphabet_facts : ∀ c ∈ BASE62_CHARACTERS,
    48 ≤ c ∧ c < 128 ∧ digitOfChar c < 62 ∧ charAt62 ((digitOfChar c : Nat) : Int) = c := by
  decide

theorem max_string_facts :
    MAX_STRING_ENCODED.length = 27 ∧ (∀ c ∈ MAX_STRING_ENCODED, c ∈ BASE62_CHARACTERS) ∧
    msbVal 62 (MAX_STRING_ENCODED.map digitOfChar) = 2 ^ 160 - 1 := by
  decide

theorem map_char_digit_id (s : List Nat) (halpha : ∀ c ∈ s, c ∈ BASE62_CHARACTERS) :
    (s.map digitOfChar).map (fun (d : Nat) => charAt62 (d : Int)) = s := by
  rw [List.map_map]
  have h : s.map ((fun (d : Nat) => charAt62 (d : Int)) ∘ digitOfChar) = s.map id := by
    apply List.map_congr_left
    intro a ha
    exact (alphabet_facts a (halpha a ha)).2.2.2
  rw [h, List.map_id]

theorem le_max_value (s : List Nat) (hlen : s.length = 27)
    (halpha : ∀ c ∈ s, c ∈ BASE62_CHARACTERS)
    (hmax : lexLtB MAX_STRING_ENCODED s = false) :
    msbVal 62 (s.map digitOfChar) < 2 ^ 160 := by
  have hcmpMS : 0 ≤ lexCompareInt MAX_STRING_ENCODED s := by
    by_contra hneg
    have := (lexLtB_iff_lexCompareInt MAX_STRING_ENCODED s).mpr (by omega)
    rw [hmax] at this
    exact Bool.false_ne_true this
  have hcmp : lexCompareInt s MAX_STRING_ENCODED ≤ 0 := by
    rw [lexCompareInt_swap]
    omega
  have hds : ∀ d ∈ s.map digitOfChar, d < 62 := by
    intro d hd
    obtain ⟨c, hc, hdc⟩ := List.mem_map.mp hd
    rw [← hdc]
    exact (alphabet_facts c (halpha c hc)).2.2.1
  have hdm : ∀ d ∈ MAX_STRING_ENCODED.map digitOfChar, d < 62 := by
    intro d hd
    obtain ⟨c, hc, hdc⟩ := List.mem_map.mp hd
    rw [← hdc]
    exact (alphabet_facts c (max_string_facts.2.1 c hc)).2.2.1
  have hlens : (s.map digitOfChar).length = (MAX_STRING_ENCODED.map digitOfChar).length := by
    simp [hlen, max_string_facts.1]
  have hmono := lexCompareInt_map_mono (fun (d : Nat) => charAt62 (d : Int)) 62
    (fun i j hi hj => charAt62_mono i hi j hj)
    (s.map digitOfChar) (MAX_STRING_ENCODED.map digitOfChar) hds hdm
  rw [map_char_digit_id s halpha, map_char_digit_id MAX_STRING_ENCODED max_string_facts.2.1]
    at hmono
  have hval := lexCompareInt_value 62 (s.map digitOfChar) (MAX_STRING_ENCODED.map digitOfChar)
    hlens hds hdm
  have hle : msbVal 62 (s.map digitOfChar) ≤ msbVal 62 (MAX_STRING_ENCODED.map digitOfChar) := by
    rcases lt_or_eq_of_le hcmp with hlt | heq
    · exact le_of_lt (hval.1.mp (hmono.1.mp hlt))
    · exact le_of_eq (hval.2.mp (hmono.2.mp heq))
  have := max_string_facts.2.2
  omega

theorem parse_success (s : List Nat) (hlen : s.length = 27)
    (halpha : ∀ c ∈ s, c ∈ BASE62_CHARACTERS)
    (hmax : lexLtB MAX_STRING_ENCODED s = false) :
    ∃ bs : List Nat, KSUID.parse s = some bs ∧ bs.length = 20 ∧ (∀ x ∈ bs, x < 256) ∧
      msbVal 256 bs = msbVal 62 (s.map digitOfChar) := by
  have hge48 : ∀ c ∈ s, 48 ≤ c := fun c hc => (alphabet_facts c (halpha c hc)).1
  have hmin : lexLtB s MIN_STRING_ENCODED = false := by
    unfold MIN_STRING_ENCODED
    exact lexLtB_ge_replicate48 s 27 (by omega) hge48
  have hascii : ∀ c ∈ s, c < 128 := fun c hc => (alphabet_facts c (halpha c hc)).2.1
  have hdecode := (fastDecodeBase62_spec s hlen).2 (le_max_value s hlen halpha hmax)
  obtain ⟨bs, hbs, hbl, hbb, hbv⟩ := hdecode
  refine ⟨bs, ?_, hbl, hbb, hbv⟩
  have hdb : decodeBase62 s = some bs := by
    unfold decodeBase62
    rw [utf8Encode_ascii s hascii, hbs]
  unfold KSUID.parse
  rw [if_neg (by rw [hlen]; exact fun h => h rfl)]
  rw [hmin, hmax]
  simp only [Bool.or_self]
  rw [if_neg (by simp)]
  rw [hdb]
  show (if bs.length = 20 then some bs else none) = some bs
  rw [if_pos hbl]

/-! ## Order preservation and string equality on well-behaved buffers -/

theorem ordering_good (a b : List Nat) (ha : goodBuffer a) (hb : goodBuffer b) :
    ∃ sa sb : List Nat,
      (∀ fuel, 28 ≤ fuel →
        fastEncodeBase62 fuel a = some sa ∧ fastEncodeBase62 fuel b = some sb) ∧
      (lexCompareInt sa sb < 0 ↔ lexCompareInt a b < 0) ∧
      (lexCompareInt sa sb = 0 ↔ lexCompareInt a b = 0) := by
  obtain ⟨da, hda1, hda2, hda3, hda4⟩ := fastEncodeBase62_good a ha
  obtain ⟨db, hdb1, hdb2, hdb3, hdb4⟩ := fastEncodeBase62_good b hb
  refine ⟨da.map (fun (d : Nat) => charAt62 (d : Int)),
    db.map (fun (d : Nat) => charAt62 (d : Int)),
    fun fuel hf => ⟨hda4 fuel hf, hdb4 fuel hf⟩, ?_, ?_⟩ <;>
  · have hmono := lexCompareInt_map_mono (fun (d : Nat) => charAt62 (d : Int)) 62
      (fun i j hi hj => charAt62_mono i hi j hj) da db hda2 hdb2
    have hv62 := lexCompareInt_value 62 da db (by rw [hda1, hdb1]) hda2 hdb2
    have hv256 := lexCompareInt_value 256 a b (by rw [ha.1, hb.1]) ha.2.1 hb.2.1
    rw [hda3, hdb3] at hv62
    first
      | exact hmono.1.trans (hv62.1.trans hv256.1.symm)
      | exact hmono.2.trans (hv62.2.trans hv256.2.symm)

theorem equals_good (a b : List Nat) (ha : goodBuffer a) (hb : goodBuffer b) :
    ∃ r : Bool, (∀ fuel, 28 ≤ fuel → KSUID.equals fuel a b = some r) ∧
      (r = true ↔ a = b) ∧ (r = true ↔ KSUID.compare a b = 0) := by
  obtain ⟨da, hda1, hda2, hda3, hda4⟩ := fastEncodeBase62_good a ha
  obtain ⟨db, hdb1, hdb2, hdb3, hdb4⟩ := fastEncodeBase62_good b hb
  have hlen : a.length = b.length := by rw [ha.1, hb.1]
  have hiff : (da.map (fun (d : Nat) => charAt62 (d : Int)) =
      db.map (fun (d : Nat) => charAt62 (d : Int))) ↔ a = b := by
    constructor
    · intro h
      have hda : (da.map (fun (d : Nat) => charAt62 (d : Int))).map digitOfChar = da := by
        rw [List.map_map]
        have : da.map (digitOfChar ∘ fun (d : Nat) => charAt62 (d : Int)) = da.map id := by
          apply List.map_congr_left
          intro d hd
          exact digitOfChar_charAt62 d (hda2 d hd)
        rw [this, List.map_id]
      have hdbq : (db.map (fun (d : Nat) => charAt62 (d : Int))).map digitOfChar = db := by
        rw [List.map_map]
        have : db.map (digitOfChar ∘ fun (d : Nat) => charAt62 (d : Int)) = db.map id := by
          apply List.map_congr_left
          intro d hd
          exact digitOfChar_charAt62 d (hdb2 d hd)
        rw [this, List.map_id]
      have hdd : da = db := by rw [← hda, ← hdbq, h]
      apply msbVal_inj 256 a b hlen ha.2.1 hb.2.1
      rw [← hda3, ← hdb3, hdd]
    · intro h
      subst h
      have := (hda4 28 (by omega)).symm.trans (hdb4 28 (by omega))
      injection this
  refine ⟨da.map (fun (d : Nat) => charAt62 (d : Int)) ==
    db.map (fun (d : Nat) => charAt62 (d : Int)), ?_, ?_, ?_⟩
  · intro fuel hf
    unfold KSUID.equals
    rw [hda4 fuel hf, hdb4 fuel hf]
  · rw [beq_iff_eq]
    exact hiff
  · rw [beq_iff_eq]
    unfold KSUID.compare
    exact hiff.trans (lexCompareInt_eq_zero_iff_eq a b hlen).symm

/-! ## Signedness of `getTimestamp` -/

theorem getD_lt_256 (b : List Nat) (hbytes : ∀ x ∈ b, x < 256) (i : Nat) :
    b.getD i 0 < 256 := by
  rw [List.getD_eq_getElem?_getD]
  cases hx : b[i]? with
  | none => simp
  | some x =>
    simp only [Option.getD_some]
    exact hbytes x (List.getElem?_mem hx)

theorem getTimestamp_signed (b : List Nat) (hbytes : ∀ x ∈ b, x < 256) :
    (-(2 ^ 31) ≤ KSUID.getTimestamp b ∧ KSUID.getTimestamp b < 2 ^ 31) ∧
    KSUID.getTimestamp b % 2 ^ 32 =
      (b.getD 0 0 : Int) * 2 ^ 24 + (b.getD 1 0 : Int) * 2 ^ 16 +
        (b.getD 2 0 : Int) * 2 ^ 8 + (b.getD 3 0 : Int) ∧
    (b.getD 0 0 < 128 →
      KSUID.getTimestamp b =
        (b.getD 0 0 : Int) * 2 ^ 24 + (b.getD 1 0 : Int) * 2 ^ 16 +
          (b.getD 2 0 : Int) * 2 ^ 8 + (b.getD 3 0 : Int)) ∧
    (128 ≤ b.getD 0 0 →
      KSUID.getTimestamp b =
        (b.getD 0 0 : Int) * 2 ^ 24 + (b.getD 1 0 : Int) * 2 ^ 16 +
          (b.getD 2 0 : Int) * 2 ^ 8 + (b.getD 3 0 : Int) - 2 ^ 32) := by
  have h0 := getD_lt_256 b hbytes 0
  have h1 := getD_lt_256 b hbytes 1
  have h2 := getD_lt_256 b hbytes 2
  have h3 := getD_lt_256 b hbytes 3
  unfold KSUID.getTimestamp toInt32
  refine ⟨⟨?_, ?_⟩, ?_, ?_, ?_⟩ <;> omega

/-! ## The claims -/

/-- C1: the round-trip claim fails because the encoder is not total:
`fastEncodeBase62` diverges on the all-`0xFF` 20-byte buffer (its
long-division loop reaches the nonempty fixed point `stuckQuotient`, so no
fuel suffices), while on 20-byte buffers whose four word-leading bytes stay
below `0x80` the encoder terminates within 28 passes and
`decodeBase62 (encodeBase62 b) = b` does hold. -/
theorem claim_C1 :
    (∀ fuel : Nat, fastEncodeBase62 fuel maxBuffer = none) ∧
    (∀ b : List Nat, goodBuffer b →
      ∃ s : List Nat, s.length = 27 ∧
        (∀ fuel, 28 ≤ fuel → fastEncodeBase62 fuel b = some s) ∧
        decodeBase62 s = some b) :=
  ⟨fastEncodeBase62_maxBuffer_none, roundtrip_good⟩

theorem claim_C1_witness :
    ∃ s : List Nat, s.length = 27 ∧
      (∀ fuel, 28 ≤ fuel → fastEncodeBase62 fuel (List.replicate 20 0) = some s) ∧
      decodeBase62 s = some (List.replicate 20 0) :=
  claim_C1.2 (List.replicate 20 0) (by unfold goodBuffer; decide)

/-- C2: refuted. When the payload increment wraps, `Uint128.increment` leaves
the carry in the unreduced high half, so the wrapped value never `equals ZERO`
and the timestamp is never bumped: for the identifier with timestamp 0 and
all-`0xFF` payload, `next()` returns the all-zero identifier (the Nil KSUID),
and `compare(x, x.next())` is positive, not negative; symmetrically
`prev()` of the Nil identifier returns that same identifier, so
`compare(x.prev(), x)` is also positive. -/
theorem claim_C2 :
    KSUID.next ([0, 0, 0, 0] ++ List.replicate 16 255) = KSUID.NilBytes ∧
    0 < KSUID.compare ([0, 0, 0, 0] ++ List.replicate 16 255)
      (KSUID.next ([0, 0, 0, 0] ++ List.replicate 16 255)) ∧
    KSUID.prev KSUID.NilBytes = [0, 0, 0, 0] ++ List.replicate 16 255 ∧
    0 < KSUID.compare (KSUID.prev KSUID.NilBytes) KSUID.NilBytes := by
  decide

/-- C3: confirmed. For every 20-byte identifier, `next` and `prev` are
mutually inverse at the byte level: the unreduced carry/borrow the `Uint128`
arithmetic leaves in the high half is truncated back by the byte-wise
two's-complement writes of `toKSUID`, so the round trips cancel even across a
payload wrap. -/
theorem claim_C3 (b : List Nat) (h : validBytes b) :
    KSUID.prev (KSUID.next b) = b ∧ KSUID.next (KSUID.prev b) = b :=
  ⟨next_prev_cancel b h, prev_next_cancel b h⟩

theorem claim_C3_witness :
    KSUID.prev (KSUID.next (List.replicate 20 7)) = List.replicate 20 7 ∧
    KSUID.next (KSUID.prev (List.replicate 20 7)) = List.replicate 20 7 :=
  claim_C3 (List.replicate 20 7) (by unfold validBytes; decide)

/-- C4: the order-preservation claim fails as stated over every pair of
20-byte buffers, because the encoder does not even terminate on buffers with
a high bit set in a word-leading byte (`maxBuffer` is such a buffer); on
pairs of buffers whose word-leading bytes stay below `0x80`, the encodings
exist and their lexicographic comparison is sign-identical to the byte-wise
comparison. -/
theorem claim_C4 :
    (∀ fuel : Nat, fastEncodeBase62 fuel maxBuffer = none) ∧
    (∀ a b : List Nat, goodBuffer a → goodBuffer b →
      ∃ sa sb : List Nat,
        (∀ fuel, 28 ≤ fuel →
          fastEncodeBase62 fuel a = some sa ∧ fastEncodeBase62 fuel b = some sb) ∧
        (lexCompareInt sa sb < 0 ↔ lexCompareInt a b < 0) ∧
        (lexCompareInt sa sb = 0 ↔ lexCompareInt a b = 0)) :=
  ⟨fastEncodeBase62_maxBuffer_none, ordering_good⟩

theorem claim_C4_witness :
    ∃ sa sb : List Nat,
      (∀ fuel, 28 ≤ fuel →
        fastEncodeBase62 fuel (List.replicate 20 0) = some sa ∧
        fastEncodeBase62 fuel (List.replicate 20 1) = some sb) ∧
      (lexCompareInt sa sb < 0 ↔
        lexCompareInt (List.replicate 20 0) (List.replicate 20 1) < 0) ∧
      (lexCompareInt sa sb = 0 ↔
        lexCompareInt (List.replicate 20 0) (List.replicate 20 1) = 0) :=
  claim_C4.2 (List.replicate 20 0) (List.replicate 20 1) (by unfold goodBuffer; decide)
    (by unfold goodBuffer; decide)

/-- C5: refuted at the stated wrap-around point. `Uint128.increment` of the
all-ones `MAX` leaves the carry in the high half, producing the value
`⟨low = 0, high = 2^64⟩`, which is not the all-zero `ZERO` and does not
`equals ZERO`; `add MAX ONE` produces the same unreduced value, so the
increment/add agreement holds here while the claimed wrap to zero does
not. -/
theorem claim_C5 :
    Uint128.increment Uint128.MAX = ⟨0, 18446744073709551616⟩ ∧
    Uint128.increment Uint128.MAX ≠ Uint128.ZERO ∧
    (Uint128.increment Uint128.MAX).equals Uint128.ZERO = false ∧
    Uint128.add Uint128.MAX Uint128.ONE = Uint128.increment Uint128.MAX := by
  decide

/-- C6: corrected. `getTimestamp` applies JS 32-bit signed shifts, so the
result is the two's-complement (signed) reinterpretation of the big-endian
word in bytes 0-3, a value in `[-2^31, 2^31)`: it agrees with the unsigned
value exactly when byte 0 is below `0x80`, and is the unsigned value minus
`2^32` when byte 0 has its high bit set. (No epoch adjustment is applied,
and the result is congruent to the unsigned word modulo `2^32`.) -/
theorem claim_C6 (b : List Nat) (hbytes : ∀ x ∈ b, x < 256) :
    (-(2 ^ 31) ≤ KSUID.getTimestamp b ∧ KSUID.getTimestamp b < 2 ^ 31) ∧
    KSUID.getTimestamp b % 2 ^ 32 =
      (b.getD 0 0 : Int) * 2 ^ 24 + (b.getD 1 0 : Int) * 2 ^ 16 +
        (b.getD 2 0 : Int) * 2 ^ 8 + (b.getD 3 0 : Int) ∧
    (b.getD 0 0 < 128 →
      KSUID.getTimestamp b =
        (b.getD 0 0 : Int) * 2 ^ 24 + (b.getD 1 0 : Int) * 2 ^ 16 +
          (b.getD 2 0 : Int) * 2 ^ 8 + (b.getD 3 0 : Int)) ∧
    (128 ≤ b.getD 0 0 →
      KSUID.getTimestamp b =
        (b.getD 0 0 : Int) * 2 ^ 24 + (b.getD 1 0 : Int) * 2 ^ 16 +
          (b.getD 2 0 : Int) * 2 ^ 8 + (b.getD 3 0 : Int) - 2 ^ 32) :=
  getTimestamp_signed b hbytes

theorem claim_C6_witness :
    (-(2 ^ 31) ≤ KSUID.getTimestamp [255, 1, 2, 3] ∧
      KSUID.getTimestamp [255, 1, 2, 3] < 2 ^ 31) ∧
    KSUID.getTimestamp [255, 1, 2, 3] % 2 ^ 32 =
      (([255, 1, 2, 3].getD 0 0 : Int)) * 2 ^ 24 +
        (([255, 1, 2, 3].getD 1 0 : Int)) * 2 ^ 16 +
        (([255, 1, 2, 3].getD 2 0 : Int)) * 2 ^ 8 + (([255, 1, 2, 3].getD 3 0 : Int)) ∧
    ([255, 1, 2, 3].getD 0 0 < 128 →
      KSUID.getTimestamp [255, 1, 2, 3] =
        (([255, 1, 2, 3].getD 0 0 : Int)) * 2 ^ 24 +
          (([255, 1, 2, 3].getD 1 0 : Int)) * 2 ^ 16 +
          (([255, 1, 2, 3].getD 2 0 : Int)) * 2 ^ 8 + (([255, 1, 2, 3].getD 3 0 : Int))) ∧
    (128 ≤ [255, 1, 2, 3].getD 0 0 →
      KSUID.getTimestamp [255, 1, 2, 3] =
        (([255, 1, 2, 3].getD 0 0 : Int)) * 2 ^ 24 +
          (([255, 1, 2, 3].getD 1 0 : Int)) * 2 ^ 16 +
          (([255, 1, 2, 3].getD 2 0 : Int)) * 2 ^ 8 +
          (([255, 1, 2, 3].getD 3 0 : Int)) - 2 ^ 32) :=
  claim_C6 [255, 1, 2, 3] (by decide)

theorem claim_C6_cex :
    KSUID.getTimestamp (255 :: List.replicate 19 0) = -16777216 ∧
    KSUID.getTimestamp KSUID.MaxBytes = -1 := by
  decide

/-- C7: corrected. `parse` rejects strings of the wrong length and strings
outside the lexicographic `[MIN_STRING_ENCODED, MAX_STRING_ENCODED]` range,
and succeeds on every in-range 27-character alphabet string; but it performs
no alphabet-membership check, so a 27-character string containing a
non-alphabet character that happens to sit inside the code-unit range is
accepted (the stray character's `base62Value` of `-1`/`-2`/`-3` is wrapped
to `255`/`254`/`253` by the `Uint8Array` store and decoded as that digit). -/
theorem claim_C7 (s : List Nat) :
    (s.length ≠ 27 → KSUID.parse s = none) ∧
    (lexLtB s MIN_STRING_ENCODED = true → KSUID.parse s = none) ∧
    (lexLtB MAX_STRING_ENCODED s = true → KSUID.parse s = none) ∧
    (s.length = 27 → (∀ c ∈ s, c ∈ BASE62_CHARACTERS) →
      lexLtB MAX_STRING_ENCODED s = false →
      ∃ bs : List Nat, KSUID.parse s = some bs ∧ bs.length = 20 ∧
        msbVal 256 bs = msbVal 62 (s.map digitOfChar)) := by
  refine ⟨?_, ?_, ?_, ?_⟩
  · intro h
    unfold KSUID.parse
    rw [if_pos h]
  · intro h
    unfold KSUID.parse
    by_cases hl : s.length = 27
    · rw [if_neg (by omega), h]
      simp
    · rw [if_pos hl]
  · intro h
    unfold KSUID.parse
    by_cases hl : s.length = 27
    · rw [if_neg (by omega), h]
      simp
    · rw [if_pos hl]
  · intro hlen halpha hmax
    obtain ⟨bs, h1, h2, _, h4⟩ := parse_success s hlen halpha hmax
    exact ⟨bs, h1, h2, h4⟩

theorem claim_C7_witness :
    ∃ bs : List Nat, KSUID.parse MAX_STRING_ENCODED = some bs ∧ bs.length = 20 ∧
      msbVal 256 bs = msbVal 62 (MAX_STRING_ENCODED.map digitOfChar) :=
  (claim_C7 MAX_STRING_ENCODED).2.2.2 max_string_facts.1 max_string_facts.2.1 (by decide)

set_option maxRecDepth 2000 in
theorem claim_C7_cex :
    (List.replicate 26 48 ++ [58]).length = 27 ∧ 58 ∉ BASE62_CHARACTERS ∧
    KSUID.parse (List.replicate 26 48 ++ [58]) =
      some (List.replicate 19 0 ++ [253]) := by
  decide

/-- C8: refuted. The long-division loop is not total: its word split goes
through signed 32-bit values, and a word-leading byte with the high bit set
makes a word negative, after which floor-division quotients and truncated
remainders drive the quotient list to the nonempty fixed point
`stuckQuotient` instead of the empty list — on the buffer `0x80` followed by
19 zero bytes the loop never exits, at any fuel. On buffers whose
word-leading bytes stay below `0x80`, the loop does reach the empty quotient
within 28 passes. -/
theorem claim_C8 :
    (∀ fuel : Nat, fastEncodeBase62 fuel highBit0Buffer = none) ∧
    (∀ b : List Nat, goodBuffer b →
      ∃ s : List Nat, ∀ fuel, 28 ≤ fuel → fastEncodeBase62 fuel b = some s) := by
  refine ⟨fastEncodeBase62_highBit0_none, ?_⟩
  intro b hb
  obtain ⟨ds, _, _, _, h4⟩ := fastEncodeBase62_good b hb
  exact ⟨_, h4⟩

theorem claim_C8_witness :
    ∃ s : List Nat, ∀ fuel, 28 ≤ fuel →
      fastEncodeBase62 fuel (List.replicate 20 3) = some s :=
  claim_C8.2 (List.replicate 20 3) (by unfold goodBuffer; decide)

/-- C9: corrected, against the sequence semantics modelled from the spec and
the repository's exhaustion test (`sequence.ts` itself is not in the
repository's files). Consecutive emitted identifiers compare strictly below
one another and share the seed's first 18 bytes (timestamp and high-order
payload bits); but the capacity is 65535 identifiers, not 65536: emitting
65535 identifiers from a fresh counter succeeds and emitting 65536 fails. -/
theorem claim_C9 (seed : List Nat) (hs : validBytes seed) :
    (∀ count : Nat, count + 1 < 65535 →
      ∃ id1 id2 : List Nat,
        Sequence.nextS seed count = some (id1, count + 1) ∧
        Sequence.nextS seed (count + 1) = some (id2, count + 2) ∧
        KSUID.compare id1 id2 < 0 ∧
        id1.take 18 = seed.take 18 ∧ id2.take 18 = seed.take 18) ∧
    (Sequence.emit seed 0 65535).isSome ∧
    Sequence.emit seed 0 65536 = none :=
  ⟨fun count h => Sequence.nextS_monotone seed hs count h, Sequence.emit_cap seed⟩

theorem claim_C9_witness :
    (∀ count : Nat, count + 1 < 65535 →
      ∃ id1 id2 : List Nat,
        Sequence.nextS (List.replicate 20 9) count = some (id1, count + 1) ∧
        Sequence.nextS (List.replicate 20 9) (count + 1) = some (id2, count + 2) ∧
        KSUID.compare id1 id2 < 0 ∧
        id1.take 18 = (List.replicate 20 9).take 18 ∧
        id2.take 18 = (List.replicate 20 9).take 18) ∧
    (Sequence.emit (List.replicate 20 9) 0 65535).isSome ∧
    Sequence.emit (List.replicate 20 9) 0 65536 = none :=
  claim_C9 (List.replicate 20 9) (by unfold validBytes; decide)

theorem claim_C9_cex :
    (Sequence.emit (List.replicate 20 0) 0 65535).isSome ∧
    Sequence.emit (List.replicate 20 0) 0 65536 = none :=
  Sequence.emit_cap (List.replicate 20 0)

/-- C10: refuted as stated over every pair of identifiers, because `equals`
goes through `toString` and therefore through `fastEncodeBase62`, which
diverges on the Max KSUID — `equals` has no value even on that identifier and
itself. On identifiers whose word-leading bytes stay below `0x80`, `equals`
terminates and returns `true` exactly when the byte contents are identical,
equivalently exactly when `compare` returns 0. -/
theorem claim_C10 :
    (∀ fuel : Nat, KSUID.equals fuel KSUID.MaxBytes KSUID.MaxBytes = none) ∧
    (∀ a b : List Nat, goodBuffer a → goodBuffer b →
      ∃ r : Bool, (∀ fuel, 28 ≤ fuel → KSUID.equals fuel a b = some r) ∧
        (r = true ↔ a = b) ∧ (r = true ↔ KSUID.compare a b = 0)) := by
  refine ⟨?_, equals_good⟩
  intro fuel
  have h : fastEncodeBase62 fuel KSUID.MaxBytes = none :=
    fastEncodeBase62_maxBuffer_none fuel
  unfold KSUID.equals
  rw [h]

theorem claim_C10_witness :
    ∃ r : Bool,
      (∀ fuel, 28 ≤ fuel →
        KSUID.equals fuel (List.replicate 20 2) (List.replicate 20 2) = some r) ∧
      (r = true ↔ List.replicate 20 2 = List.replicate 20 2) ∧
      (r = true ↔ KSUID.compare (List.replicate 20 2) (List.replicate 20 2) = 0) :=
  claim_C10.2 (List.replicate 20 2) (List.replicate 20 2) (by unfold goodBuffer; decide)
    (by unfold goodBuffer; decide)
